import Mathlib

/-!
Painter: parser, operations and event loop.

A shallow embedding of `painter/op.go`, `painter/lang/parser.go` and
`painter/loop.go`, followed by theorems about them.

Conventions of the embedding.

* Go `float64` is the type `F64` below: IEEE-754 binary64 with NaN, the two
  infinities and signed zeros; products and conversions round to nearest,
  ties to even.
* Go `string` is a Lean `String` (a list of Unicode code points); byte
  sequences that are not valid UTF-8 are outside the model.
* Go `int` is `Int`, wrapped to 64 bits by `wrapInt` where the source
  computes with it.
* A `screen.Texture` is a handle carrying its bounds; the calls made on it
  (`Fill`, `Release`) and on the receiver (`Update`) are recorded as a list
  of `Event`s returned by the functions that make them.
* Log output is not modelled.
-/

namespace Painter

/-! ## binary64 -/

/-- IEEE-754 binary64 values (Go `float64`).  A finite value is
`(-1)^neg * m * 2^e`; the values produced by `F64.round` are canonical:
`m < 2^53`, `-1074 ≤ e ≤ 971`, and `2^52 ≤ m` unless `e = -1074`. -/
inductive F64 where
  | nan
  | inf (neg : Bool)
  | fin (neg : Bool) (m : Nat) (e : Int)
  deriving DecidableEq, Repr

/-- Number of binary digits of `n`, by recursion on `fuel`. -/
def bitLenAux : Nat → Nat → Nat
  | 0, _ => 0
  | fuel + 1, n => if n = 0 then 0 else bitLenAux fuel (n / 2) + 1

/-- Number of binary digits of `n` (`0` for `0`). -/
def bitLen (n : Nat) : Nat := bitLenAux n n

/-- The least Go `int` on a 64-bit platform, `-2^63`. -/
def minInt : Int := -9223372036854775808

/-- The greatest Go `int` on a 64-bit platform, `2^63 - 1`. -/
def maxInt : Int := 9223372036854775807

/-- Two's-complement wrap of an integer to the 64-bit Go `int`. -/
def wrapInt (z : Int) : Int := (z + 9223372036854775808) % 18446744073709551616 - 9223372036854775808

namespace F64

/-- The value `+0`. -/
def zero : F64 := fin false 0 (-1074)

/-- The value `1`. -/
def one : F64 := fin false (2 ^ 52) (-52)

/-- Round the non-negative rational `p / q` (`q > 0`) to the nearest binary64,
ties to even; a result beyond the largest finite binary64 is infinite. -/
def round (neg : Bool) (p q : Nat) : F64 :=
  if p = 0 then fin neg 0 (-1074)
  else
    let e0 : Int := (bitLen p : Int) - (bitLen q : Int) - 52
    -- `p / (q * 2^e0)` lies strictly between `2^51` and `2^53`
    let e1 : Int := if p * 2 ^ (-e0).toNat < q * 2 ^ e0.toNat * 2 ^ 52 then e0 - 1 else e0
    let e : Int := if e1 < -1074 then -1074 else e1
    let num := p * 2 ^ (-e).toNat
    let den := q * 2 ^ e.toNat
    let m0 := num / den
    let r := num % den
    let m := if den < 2 * r ∨ (2 * r = den ∧ m0 % 2 = 1) then m0 + 1 else m0
    let me : Nat × Int := if m = 2 ^ 53 then (2 ^ 52, e + 1) else (m, e)
    if 971 < me.2 then inf neg else fin neg me.1 me.2

/-- The integer `s * m * 2^(e - k)` for a finite value scaled to the common
exponent `k ≤ e`. -/
def scaled (neg : Bool) (m : Nat) (e k : Int) : Int :=
  (if neg then -1 else 1) * ((m * 2 ^ (e - k).toNat : Nat) : Int)

/-- Go `a < b` on `float64`: false as soon as one side is NaN. -/
def lt : F64 → F64 → Bool
  | nan, _ => false
  | _, nan => false
  | inf n1, inf n2 => n1 && !n2
  | inf n1, fin _ _ _ => n1
  | fin _ _ _, inf n2 => !n2
  | fin n1 m1 e1, fin n2 m2 e2 =>
      decide (scaled n1 m1 e1 (min e1 e2) < scaled n2 m2 e2 (min e1 e2))

/-- Go `a > b` on `float64`. -/
def gt (a b : F64) : Bool := lt b a

/-- Go `a <= b` on `float64`: false as soon as one side is NaN. -/
def le : F64 → F64 → Bool
  | nan, _ => false
  | _, nan => false
  | inf n1, inf n2 => n1 || !n2
  | inf n1, fin _ _ _ => n1
  | fin _ _ _, inf n2 => !n2
  | fin n1 m1 e1, fin n2 m2 e2 =>
      decide (scaled n1 m1 e1 (min e1 e2) ≤ scaled n2 m2 e2 (min e1 e2))

/-- Go `a >= b` on `float64`. -/
def ge (a b : F64) : Bool := le b a

/-- Go `a * b` on `float64`. -/
def mul : F64 → F64 → F64
  | nan, _ => nan
  | _, nan => nan
  | inf n1, inf n2 => inf (xor n1 n2)
  | inf n1, fin n2 m2 _ => if m2 = 0 then nan else inf (xor n1 n2)
  | fin n1 m1 _, inf n2 => if m1 = 0 then nan else inf (xor n1 n2)
  | fin n1 m1 e1, fin n2 m2 e2 =>
      round (xor n1 n2) (m1 * m2 * 2 ^ (e1 + e2).toNat) (2 ^ (-(e1 + e2)).toNat)

/-- Go `float64(z)` for an `int` `z`. -/
def ofInt (z : Int) : F64 := round (decide (z < 0)) z.natAbs 1

/-- Go `int(f)` for a `float64` `f`: truncation toward zero when the result
fits in 64 bits.  For NaN, the infinities and values out of range the Go
specification leaves the result to the implementation; the value taken here,
`-2^63`, is the one produced on amd64. -/
def toInt : F64 → Int
  | nan => minInt
  | inf _ => minInt
  | fin neg m e =>
      let t : Int := (if neg then -1 else 1) * (((m * 2 ^ e.toNat) / 2 ^ (-e).toNat : Nat) : Int)
      if minInt ≤ t ∧ t ≤ maxInt then t else minInt

end F64

/-! ## Strings (`strings`, `unicode`) -/

/-- Go `unicode.IsSpace`: the code points with the White_Space property. -/
def isSpace (c : Char) : Bool :=
  let n := c.toNat
  (9 ≤ n && n ≤ 13) || n = 0x20 || n = 0x85 || n = 0xA0 || n = 0x1680 ||
  (0x2000 ≤ n && n ≤ 0x200A) || n = 0x2028 || n = 0x2029 || n = 0x202F ||
  n = 0x205F || n = 0x3000

/-- Go `unicode.ToLower` as far as the parser can observe it: ASCII capitals,
and the two non-ASCII code points whose lower case is an ASCII letter
(U+0130 and the Kelvin sign U+212A).  Every other non-ASCII code point has a
non-ASCII lower case, which the parser only ever compares with ASCII
keywords; it is left in place here. -/
def toLowerRune (c : Char) : Char :=
  if 'A' ≤ c ∧ c ≤ 'Z' then Char.ofNat (c.toNat + 32)
  else if c.toNat = 0x130 then 'i'
  else if c.toNat = 0x212A then 'k'
  else c

/-- Go `strings.ToLower`. -/
def ToLower (s : String) : String := String.mk (s.data.map toLowerRune)

/-- Go `strings.TrimSpace`. -/
def TrimSpace (s : String) : String :=
  String.mk (((s.data.dropWhile isSpace).reverse.dropWhile isSpace).reverse)

/-- The loop of `strings.Fields`: `cur` is the field being read, reversed. -/
def fieldsAux : List Char → List Char → List String
  | [], cur => if cur.isEmpty then [] else [String.mk cur.reverse]
  | c :: cs, cur =>
      if isSpace c then
        (if cur.isEmpty then fieldsAux cs [] else String.mk cur.reverse :: fieldsAux cs [])
      else fieldsAux cs (c :: cur)

/-- Go `strings.Fields`: the maximal runs of non-space code points. -/
def Fields (s : String) : List String := fieldsAux s.data []

/-- The text before the first `#`, or all of it when there is none:
`line[:strings.Index(line, "#")]` guarded by `commentIndex != -1`. -/
def stripComment (s : String) : String := String.mk (s.data.takeWhile (fun c => c != '#'))

/-- Go `strings.HasPrefix`. -/
def HasPrefix (s pre : String) : Bool := pre.data.isPrefixOf s.data

/-! ## `strconv.ParseFloat` -/

/-- Whether `c` is an ASCII decimal digit. -/
def isDigit (c : Char) : Bool := decide ('0' ≤ c ∧ c ≤ '9')

/-- Whether `c` is one of `a`..`f`, `A`..`F`. -/
def isHexLetter (c : Char) : Bool := decide (('a' ≤ c ∧ c ≤ 'f') ∨ ('A' ≤ c ∧ c ≤ 'F'))

/-- ASCII lower case of a byte, as in `commonPrefixLenIgnoreCase`. -/
def asciiLower (c : Char) : Char := if 'A' ≤ c ∧ c ≤ 'Z' then Char.ofNat (c.toNat + 32) else c

/-- Value of a hexadecimal digit. -/
def hexVal (c : Char) : Nat :=
  if isDigit c then c.toNat - 48 else (asciiLower c).toNat - 97 + 10

/-- Go `commonPrefixLenIgnoreCase(s, prefix)` for a lower-case `prefix`. -/
def commonPrefixLenIgnoreCase : List Char → List Char → Nat
  | c :: cs, p :: ps => if asciiLower c = p then commonPrefixLenIgnoreCase cs ps + 1 else 0
  | _, _ => 0

/-- Go `strconv.special` together with the requirement of `ParseFloat` that
the whole string is consumed: an optionally signed `inf` or `infinity`, or an
unsigned `nan`, in any letter case. -/
def special (s : List Char) : Option F64 :=
  match s with
  | [] => none
  | c :: cs =>
      let infOf (neg : Bool) (nsign : Nat) (t : List Char) : Option F64 :=
        let n0 := commonPrefixLenIgnoreCase t "infinity".data
        let n := if 3 < n0 ∧ n0 < 8 then 3 else n0
        if (n = 3 ∨ n = 8) ∧ nsign + n = s.length then some (F64.inf neg) else none
      if c = '+' then infOf false 1 cs
      else if c = '-' then infOf true 1 cs
      else if c = 'i' ∨ c = 'I' then infOf false 0 s
      else if c = 'n' ∨ c = 'N' then
        (if commonPrefixLenIgnoreCase s "nan".data = 3 ∧ s.length = 3 then some F64.nan else none)
      else none

/-- The variables of the digit loop of `strconv.readFloat`.  The mantissa
keeps every digit (the source keeps 19 and lets its slow path recover the
rest), so `nd` is also the source's `ndMant`. -/
structure MantState where
  sawdot : Bool
  sawdigits : Bool
  nd : Nat
  dp : Int
  mantissa : Nat
  underscores : Bool
  deriving DecidableEq, Repr

/-- The digit loop of `strconv.readFloat` in base 10 (`hex = false`) or 16;
returns the state and the unread rest. -/
def readMant (hex : Bool) : List Char → MantState → MantState × List Char
  | [], st => (st, [])
  | c :: cs, st =>
      if c = '_' then readMant hex cs { st with underscores := true }
      else if c = '.' then
        (if st.sawdot then (st, c :: cs)
         else readMant hex cs { st with sawdot := true, dp := st.nd })
      else if isDigit c then
        (if c = '0' ∧ st.nd = 0 then
           readMant hex cs { st with sawdigits := true, dp := st.dp - 1 }
         else
           readMant hex cs { st with sawdigits := true, nd := st.nd + 1,
                                     mantissa := st.mantissa * (if hex then 16 else 10) + (c.toNat - 48) })
      else if hex ∧ isHexLetter c then
        readMant hex cs { st with sawdigits := true, nd := st.nd + 1,
                                  mantissa := st.mantissa * 16 + hexVal c }
      else (st, c :: cs)

/-- The exponent digit loop of `strconv.readFloat`: digits and underscores,
the value no longer growing once it has reached 10000.  Returns the value,
whether an underscore was met, and the unread rest. -/
def readExpDigits : List Char → Nat → Bool → Nat × Bool × List Char
  | [], e, u => (e, u, [])
  | c :: cs, e, u =>
      if c = '_' then readExpDigits cs e true
      else if isDigit c then readExpDigits cs (if e < 10000 then e * 10 + (c.toNat - 48) else e) u
      else (e, u, c :: cs)

/-- Go `strconv.underscoreOK` after its optional sign and base prefix:
`i` is the kind of the previous character (`'0'` digit, `'_'`, `'!'` other,
`'^'` start). -/
def underscoreOKAux (hex : Bool) : List Char → Char → Bool
  | [], i => i != '_'
  | c :: cs, i =>
      if isDigit c ∨ (hex ∧ isHexLetter c) then underscoreOKAux hex cs '0'
      else if c = '_' then (if i != '0' then false else underscoreOKAux hex cs '_')
      else if i = '_' then false
      else underscoreOKAux hex cs '!'

/-- Go `strconv.underscoreOK`. -/
def underscoreOK (s : List Char) : Bool :=
  let s1 := match s with
    | c :: cs => if c = '-' ∨ c = '+' then cs else s
    | [] => s
  match s1 with
  | c0 :: c1 :: cs =>
      if c0 = '0' ∧ (c1 = 'b' ∨ c1 = 'B' ∨ c1 = 'o' ∨ c1 = 'O' ∨ c1 = 'x' ∨ c1 = 'X') then
        underscoreOKAux (decide (c1 = 'x' ∨ c1 = 'X')) cs '0'
      else underscoreOKAux false s1 '^'
  | _ => underscoreOKAux false s1 '^'

/-- Go `strconv.readFloat` together with the requirement of `ParseFloat` that
the whole string is consumed.  Returns the sign, the mantissa, the exponent
(of 10, or of 2 when `hex`) and `hex`. -/
def readFloat (s : List Char) : Option (Bool × Nat × Int × Bool) :=
  match s with
  | [] => none
  | c :: cs =>
      let neg : Bool := decide (c = '-')
      let s1 : List Char := if c = '+' ∨ c = '-' then cs else s
      let hex : Bool := match s1 with
        | c0 :: c1 :: _ :: _ => decide (c0 = '0' ∧ (c1 = 'x' ∨ c1 = 'X'))
        | _ => false
      let s2 : List Char := if hex then s1.drop 2 else s1
      let (st, rest) := readMant hex s2 ⟨false, false, 0, 0, 0, false⟩
      if !st.sawdigits then none
      else
        let dp0 : Int := if st.sawdot then st.dp else st.nd
        let dp1 : Int := if hex then dp0 * 4 else dp0
        let ndMant : Int := if hex then (st.nd : Int) * 4 else st.nd
        let finish (dp : Int) (underscores : Bool) (rest : List Char) :
            Option (Bool × Nat × Int × Bool) :=
          if !rest.isEmpty then none
          else if underscores && !underscoreOK s then none
          else some (neg, st.mantissa, if st.mantissa = 0 then 0 else dp - ndMant, hex)
        match rest with
        | [] => if hex then none else finish dp1 st.underscores []
        | x :: xs =>
            if (hex ∧ (x = 'p' ∨ x = 'P')) ∨ (¬ hex ∧ (x = 'e' ∨ x = 'E')) then
              match xs with
              | [] => none
              | y :: ys =>
                  let esign : Int := if y = '-' then -1 else 1
                  let ds : List Char := if y = '+' ∨ y = '-' then ys else xs
                  match ds with
                  | [] => none
                  | d :: _ =>
                      if !isDigit d then none
                      else
                        let (e, u, rest2) := readExpDigits ds 0 st.underscores
                        finish (dp1 + (e : Int) * esign) u rest2
            else none

/-- Go `strconv.ParseFloat(s, 64)`: `none` stands for a non-nil error (a
syntax error, or a range error when the value rounds to an infinity),
`some f` for the value with a nil error.  The result is the binary64 nearest
to the number denoted by `s`. -/
def ParseFloat (s : String) : Option F64 :=
  match special s.data with
  | some f => some f
  | none =>
      match readFloat s.data with
      | none => none
      | some (neg, mant, exp, hex) =>
          let b : Nat := if hex then 2 else 10
          match F64.round neg (mant * b ^ exp.toNat) (b ^ (-exp).toNat) with
          | F64.fin n m e => some (F64.fin n m e)
          | _ => none

/-! ## Operations (`painter/op.go`) -/

/-- The closed set of operations; a constructor per Go type implementing
`Operation`. -/
inductive Operation where
  | WhiteOperation
  | GreenOperation
  | UpdateOperation
  | BgRectOperation (X1 Y1 X2 Y2 : F64)
  | FigureOperation (X Y : F64)
  | MoveOperation (X Y : F64)
  | ResetOperation
  deriving DecidableEq, Repr

/-- The body of the loop of `ParseCoords` after a successful `ParseFloat`:
a value below 0 becomes 0, a value above 1 becomes 1. -/
def clamp (v : F64) : F64 :=
  if F64.lt v F64.zero || F64.gt v F64.one then
    let v1 := if F64.lt v F64.zero then F64.zero else v
    if F64.gt v1 F64.one then F64.one else v1
  else v

/-- The loop of `ParseCoords` over the arguments: `none` at the first
argument that `ParseFloat` rejects. -/
def parseCoordsLoop : List String → Option (List F64)
  | [] => some []
  | arg :: rest =>
      match ParseFloat arg with
      | none => none
      | some v =>
          match parseCoordsLoop rest with
          | none => none
          | some vs => some (clamp v :: vs)

/-- Go `ParseCoords(args, count)`: `none` stands for `(nil, false)`,
`some coords` for `(coords, true)`. -/
def ParseCoords (args : List String) (count : Nat) : Option (List F64) :=
  if args.length ≠ count then none else parseCoordsLoop args

/-! ## Parser (`painter/lang/parser.go`) -/

/-- Go `parseLine`: `none` stands for a nil `Operation`. -/
def parseLine (line : String) : Option Operation :=
  match Fields line with
  | [] => none
  | f0 :: args =>
      let command := ToLower f0
      if command = "white" then
        (if args.length ≠ 0 then none else some Operation.WhiteOperation)
      else if command = "green" then
        (if args.length ≠ 0 then none else some Operation.GreenOperation)
      else if command = "update" then
        (if args.length ≠ 0 then none else some Operation.UpdateOperation)
      else if command = "bgrect" then
        match ParseCoords args 4 with
        | some [c0, c1, c2, c3] => some (Operation.BgRectOperation c0 c1 c2 c3)
        | _ => none
      else if command = "figure" then
        match ParseCoords args 2 with
        | some [c0, c1] => some (Operation.FigureOperation c0 c1)
        | _ => none
      else if command = "move" then
        match ParseCoords args 2 with
        | some [c0, c1] => some (Operation.MoveOperation c0 c1)
        | _ => none
      else if command = "reset" then
        (if args.length ≠ 0 then none else some Operation.ResetOperation)
      else none

/-- Go `bufio.dropCR`: drop one trailing carriage return. -/
def dropCR (line : List Char) : List Char :=
  match line.reverse with
  | c :: rest => if c = '\r' then rest.reverse else line
  | [] => line

/-- Number of bytes of the UTF-8 encoding. -/
def byteLen (cs : List Char) : Nat := (cs.map Char.utf8Size).sum

/-- Go `bufio.MaxScanTokenSize`. -/
def MaxScanTokenSize : Nat := 65536

/-- An `io.Reader`: the text it delivers, the error that ends it (`none` for
`io.EOF`), and whether its last `Read` returns that error or `io.EOF`
together with the last bytes rather than in a call of its own. -/
structure Reader where
  data : String
  err : Option String
  errWithData : Bool
  deriving DecidableEq, Repr

/-- A reader over a text that ends with `io.EOF`, like `strings.NewReader`. -/
def Reader.ofString (s : String) : Reader := ⟨s, none, false⟩

/-- The error value returned by `Parser.Parse`. -/
inductive ParseError where
  | tooLong
  | read (msg : String)
  deriving DecidableEq, Repr

/-- The tokens of a `bufio.Scanner` with `bufio.ScanLines` over the text
`cs`; `cur` is the line being read, reversed.  A line ends at a line feed or
at the end of the text, and loses one trailing carriage return.  The scanner
stops with `ErrTooLong` (second component `true`) when 65536 bytes are
buffered with no line feed among them, unless the end of the input is known
at that moment (`eofKnown`). -/
def scanLines (eofKnown : Bool) : List Char → List Char → List String × Bool
  | [], cur =>
      if cur.isEmpty then ([], false)
      else if MaxScanTokenSize < byteLen cur ∨ (byteLen cur = MaxScanTokenSize ∧ !eofKnown) then
        ([], true)
      else ([String.mk (dropCR cur.reverse)], false)
  | c :: cs, cur =>
      if c = '\n' then
        (if MaxScanTokenSize ≤ byteLen cur then ([], true)
         else
           let r := scanLines eofKnown cs []
           (String.mk (dropCR cur.reverse) :: r.1, r.2))
      else scanLines eofKnown cs (c :: cur)

/-- The body of the scanning loop of `Parser.Parse` for one line: the
operation appended to `res`, if any. -/
def parseCommandLine (commandLine : String) : Option Operation :=
  let lineForParsing := stripComment commandLine
  let trimmedLine := TrimSpace lineForParsing
  if trimmedLine = "" || HasPrefix (TrimSpace commandLine) "#" then none
  else parseLine trimmedLine

/-- The scanning loop of `Parser.Parse`, `res` being the operations so far. -/
def parseLoop : List String → List Operation → List Operation
  | [], res => res
  | commandLine :: rest, res =>
      match parseCommandLine commandLine with
      | some op => parseLoop rest (res ++ [op])
      | none => parseLoop rest res

/-- Go `Parser.Parse`: the operations and the error (`none` for nil). -/
def Parse (r : Reader) : List Operation × Option ParseError :=
  let scanned := scanLines r.errWithData r.data.data []
  let res := parseLoop scanned.1 []
  if scanned.2 then ([], some ParseError.tooLong)
  else
    match r.err with
    | some msg => ([], some (ParseError.read msg))
    | none => (res, none)

/-! ## Canvas state (`painter/loop.go`) -/

/-- Go `image.Point`. -/
structure Point where
  X : Int
  Y : Int
  deriving DecidableEq, Repr

/-- Go `image.Rectangle`. -/
structure Rectangle where
  Min : Point
  Max : Point
  deriving DecidableEq, Repr

/-- Go `image.Rect`: the rectangle with the given corners, the coordinates
swapped where needed so that `Min ≤ Max`. -/
def Rect (x0 y0 x1 y1 : Int) : Rectangle :=
  let xs : Int × Int := if x0 > x1 then (x1, x0) else (x0, x1)
  let ys : Int × Int := if y0 > y1 then (y1, y0) else (y0, y1)
  ⟨⟨xs.1, ys.1⟩, ⟨xs.2, ys.2⟩⟩

/-- Go `Rectangle.Dx`. -/
def Rectangle.Dx (r : Rectangle) : Int := wrapInt (r.Max.X - r.Min.X)

/-- Go `Rectangle.Dy`. -/
def Rectangle.Dy (r : Rectangle) : Int := wrapInt (r.Max.Y - r.Min.Y)

/-- Go `color.Color`, for the two concrete types the package uses. -/
inductive Color where
  | Gray16 (Y : Nat)
  | RGBA (R G B A : Nat)
  deriving DecidableEq, Repr

/-- Go `color.White`. -/
def Color.White : Color := Color.Gray16 0xffff

/-- Go `color.Black`. -/
def Color.Black : Color := Color.Gray16 0

/-- A `screen.Texture`: an identity and the rectangle its `Bounds` returns. -/
structure Texture where
  id : Nat
  bounds : Rectangle
  deriving DecidableEq, Repr

/-- A `screen.Screen`, as far as the loop uses it: `NewTexture`, returning
the texture (possibly nil) and whether the error is non-nil. -/
structure Screen where
  NewTexture : Point → Option Texture × Bool

/-- Go `Figure`. -/
structure Figure where
  X : Int
  Y : Int
  deriving DecidableEq, Repr

/-- Go `RelativeRectangle`. -/
structure RelativeRectangle where
  X1 : F64
  Y1 : F64
  X2 : F64
  Y2 : F64
  deriving DecidableEq, Repr

/-- Go `LoopState`. -/
structure LoopState where
  Texture : Option Texture
  Background : Color
  BgRect : Option RelativeRectangle
  Figures : List Figure
  Screen : Option Screen
  WindowSize : Point

/-- Go `int(rel * float64(d))`. -/
def toPixel (rel : F64) (d : Int) : Int := F64.toInt (F64.mul rel (F64.ofInt d))

/-- Go `Operation.Do`: the state after the call and the returned flag. -/
def Operation.Do (o : Operation) (state : LoopState) : LoopState × Bool :=
  match o with
  | Operation.WhiteOperation => ({ state with Background := Color.White }, false)
  | Operation.GreenOperation => ({ state with Background := Color.RGBA 0 0xff 0 0xff }, false)
  | Operation.UpdateOperation => (state, true)
  | Operation.BgRectOperation X1 Y1 X2 Y2 =>
      ({ state with BgRect := some ⟨X1, Y1, X2, Y2⟩ }, false)
  | Operation.FigureOperation X Y =>
      match state.Texture with
      | none => (state, false)
      | some tex =>
          let bounds := tex.bounds
          let pxX := toPixel X bounds.Dx
          let pxY := toPixel Y bounds.Dy
          ({ state with Figures := state.Figures ++ [⟨pxX, pxY⟩] }, false)
  | Operation.MoveOperation X Y =>
      match state.Texture with
      | none => (state, false)
      | some tex =>
          let bounds := tex.bounds
          let newX := toPixel X bounds.Dx
          let newY := toPixel Y bounds.Dy
          ({ state with Figures := state.Figures.map (fun _ => ⟨newX, newY⟩) }, false)
  | Operation.ResetOperation =>
      ({ state with Background := Color.Black, BgRect := none, Figures := [] }, false)

/-! ## Loop (`painter/loop.go`) -/

/-- A `Receiver`, by identity. -/
structure Receiver where
  id : Nat
  deriving DecidableEq, Repr

/-- A call made by the loop on a texture, on the screen or on the receiver. -/
inductive Event where
  | Fill (t : Texture) (dr : Rectangle) (src : Color)
  | Release (t : Texture)
  | NewTexture (size : Point)
  | Update (r : Receiver) (t : Texture)
  deriving DecidableEq, Repr

/-- Go `Loop`.  The buffered channel `MsgQueue` is the list of the operations
it holds, oldest first; `stop` and `stopped` tell whether the channel of that
name has been closed. -/
structure Loop where
  Receiver : Option Receiver
  State : LoopState
  MsgQueue : List Operation
  stop : Bool
  stopped : Bool

/-- Capacity of `MsgQueue`: `make(chan Operation, 100)`. -/
def queueCap : Nat := 100

/-- The two `Fill` calls of `Loop.drawFigure`. -/
def drawFigure (texture : Texture) (x y : Int) : List Event :=
  let bounds := texture.bounds
  let figureWidth0 := Int.tdiv bounds.Dx 2
  let figureHeight0 := Int.tdiv bounds.Dy 2
  let figureWidth := if figureWidth0 < 20 then 20 else figureWidth0
  let figureHeight := if figureHeight0 < 20 then 20 else figureHeight0
  let lineWidth0 := Int.tdiv figureHeight 8
  let lineWidth := if lineWidth0 < 2 then 2 else lineWidth0
  let vRect := Rect
    (wrapInt (x - Int.tdiv figureWidth 2))
    (wrapInt (y - Int.tdiv figureHeight 2))
    (wrapInt (wrapInt (x - Int.tdiv figureWidth 2) + lineWidth))
    (wrapInt (y + Int.tdiv figureHeight 2))
  let hRect := Rect
    (wrapInt (wrapInt (x - Int.tdiv figureWidth 2) + lineWidth))
    (wrapInt (y - Int.tdiv lineWidth 2))
    (wrapInt (x + Int.tdiv figureWidth 2))
    (wrapInt (y + Int.tdiv lineWidth 2))
  let figureColor := Color.RGBA 0xff 0xff 0x00 0xff
  [Event.Fill texture vRect figureColor, Event.Fill texture hRect figureColor]

/-- The `Fill` calls of `Loop.drawCurrentState`. -/
def drawCurrentState (state : LoopState) : List Event :=
  match state.Texture with
  | none => []
  | some tex =>
      [Event.Fill tex tex.bounds state.Background] ++
      (match state.BgRect with
       | none => []
       | some r =>
           let bounds := tex.bounds
           let width := F64.ofInt bounds.Dx
           let height := F64.ofInt bounds.Dy
           let pxRect := Rect
             (F64.toInt (F64.mul r.X1 width)) (F64.toInt (F64.mul r.Y1 height))
             (F64.toInt (F64.mul r.X2 width)) (F64.toInt (F64.mul r.Y2 height))
           [Event.Fill tex pxRect Color.Black]) ++
      (state.Figures.map (fun f => drawFigure tex f.X f.Y)).flatten

/-- How the process ends when the loop does not return normally:
`log.Fatalf`, or the panic of a method call on a nil `Screen`. -/
inductive Crash where
  | fatal
  | nilScreen
  deriving DecidableEq, Repr

/-- Go `Loop.resetTexture`, on the state of the loop: the state afterwards
and the calls made, or the way the process ends. -/
def resetTexture (state : LoopState) : Except Crash (LoopState × List Event) :=
  let ev1 : List Event := match state.Texture with
    | some t => [Event.Release t]
    | none => []
  let size : Point :=
    if state.WindowSize.X = 0 ∨ state.WindowSize.Y = 0 then ⟨800, 800⟩ else state.WindowSize
  match state.Screen with
  | none => Except.error Crash.nilScreen
  | some scr =>
      let r := scr.NewTexture size
      if r.2 then Except.error Crash.fatal
      else
        let state1 : LoopState := { state with WindowSize := size, Texture := r.1 }
        Except.ok (state1, ev1 ++ [Event.NewTexture size] ++ drawCurrentState state1)

/-- Go `NewLoop`. -/
def NewLoop (s : Option Screen) : Except Crash (Loop × List Event) :=
  let initialSize : Point := ⟨800, 800⟩
  let state : LoopState :=
    { Screen := s
      Background := Color.RGBA 0 0xff 0 0xff
      Figures := [⟨Int.tdiv initialSize.X 2, Int.tdiv initialSize.Y 2⟩]
      BgRect := none
      WindowSize := initialSize
      Texture := none }
  match resetTexture state with
  | Except.error c => Except.error c
  | Except.ok (state1, ev) =>
      Except.ok ({ Receiver := none, State := state1, MsgQueue := [], stop := false, stopped := false }, ev)

/-- The part of an iteration of `Loop.Start` that follows the dequeuing of
`op`: apply it, repaint unless it is an `UpdateOperation`, notify the
receiver when asked to. -/
def applyOp (l : Loop) (op : Operation) : Loop × List Event :=
  let r := op.Do l.State
  let l1 : Loop := { l with State := r.1 }
  let updateRequested := r.2
  let ev1 : List Event :=
    if op = Operation.UpdateOperation then [] else drawCurrentState l1.State
  let ev2 : List Event :=
    match l1.Receiver, l1.State.Texture with
    | some rcv, some tex => if updateRequested then [Event.Update rcv tex] else []
    | _, _ => []
  (l1, ev1 ++ ev2)

/-- The `case op := <-l.MsgQueue` branch of `Loop.Start` once `op` has been
taken from the queue. -/
def processOp (l : Loop) (op : Operation) : Except Crash (Loop × List Event) :=
  if l.State.Texture.isNone ∧ l.State.Screen.isSome then
    match resetTexture l.State with
    | Except.error c => Except.error c
    | Except.ok (state1, ev) =>
        let l1 : Loop := { l with State := state1 }
        if l1.State.Texture.isNone then Except.ok (l1, ev)
        else
          let r := applyOp l1 op
          Except.ok (r.1, ev ++ r.2)
  else Except.ok (applyOp l op)

/-- One iteration of `Loop.Start` whose `select` takes the `MsgQueue` case;
`none` when the queue is empty (the case cannot be taken). -/
def recvOp (l : Loop) : Option (Except Crash (Loop × List Event)) :=
  match l.MsgQueue with
  | [] => none
  | op :: rest => some (processOp { l with MsgQueue := rest } op)

/-- The iteration of `Loop.Start` whose `select` takes the `stop` case, with
the deferred `close(l.stopped)`; `none` when `stop` is not closed. -/
def recvStop (l : Loop) : Option (Loop × List Event) :=
  if l.stop then
    match l.State.Texture with
    | some t => some ({ l with State := { l.State with Texture := none }, stopped := true }, [Event.Release t])
    | none => some ({ l with stopped := true }, [])
  else none

/-- At most `n` iterations of `Loop.Start`, each taking the `MsgQueue` case,
until the queue is empty; the calls made are collected in order. -/
def drainN : Nat → Loop → Except Crash (Loop × List Event)
  | 0, l => Except.ok (l, [])
  | n + 1, l =>
      match recvOp l with
      | none => Except.ok (l, [])
      | some (Except.error c) => Except.error c
      | some (Except.ok (l1, ev1)) =>
          match drainN n l1 with
          | Except.error c => Except.error c
          | Except.ok (l2, ev2) => Except.ok (l2, ev1 ++ ev2)

/-- The iterations of `Loop.Start` that empty the queue. -/
def drain (l : Loop) : Except Crash (Loop × List Event) := drainN l.MsgQueue.length l

/-- Go `Loop.Post`: a send on `MsgQueue` that is dropped when the buffer is
full. -/
def Post (l : Loop) (op : Operation) : Loop :=
  if l.MsgQueue.length < queueCap then { l with MsgQueue := l.MsgQueue ++ [op] } else l

/-- Successive `Post` calls. -/
def postAll (l : Loop) (ops : List Operation) : Loop := ops.foldl Post l

/-- Go `Loop.SetReceiver`. -/
def SetReceiver (l : Loop) (r : Option Receiver) : Loop :=
  let l1 : Loop := { l with Receiver := r }
  if l1.Receiver.isSome then Post l1 Operation.UpdateOperation else l1

/-- Go `Loop.Stop` up to its wait on `stopped`: `close(l.stop)`, for a loop
whose `stop` channel is still open.  Closing the channel a second time
panics in Go; that second call is not described by this definition. -/
def Stop (l : Loop) : Loop := { l with stop := true }

/-! ## Auxiliary definitions used in the statements -/

/-- The state after applying `Do` of each operation in turn. -/
def applyAll (state : LoopState) (ops : List Operation) : LoopState :=
  ops.foldl (fun s o => (o.Do s).1) state

/-- The `Receiver.Update` calls among the calls made, in order. -/
def updatesOf (ev : List Event) : List (Receiver × Texture) :=
  ev.filterMap (fun e => match e with
    | Event.Update r t => some (r, t)
    | _ => none)

/-- A screen whose `NewTexture` returns a texture with bounds
`Rectangle{Max: size}` and a nil error, like the screens of the tests. -/
def okScreen : Screen := ⟨fun size => (some ⟨0, ⟨⟨0, 0⟩, size⟩⟩, false)⟩

/-- A screen whose `NewTexture` returns a nil texture with a nil error. -/
def nilScreen : Screen := ⟨fun _ => (none, false)⟩

/-- The 800x800 texture made by `okScreen`. -/
def tex800 : Texture := ⟨0, ⟨⟨0, 0⟩, ⟨800, 800⟩⟩⟩

/-- The loop returned by `NewLoop` on `okScreen`. -/
def initialLoop : Loop :=
  { Receiver := none
    State :=
      { Texture := some tex800
        Background := Color.RGBA 0 0xff 0 0xff
        BgRect := none
        Figures := [⟨400, 400⟩]
        Screen := some okScreen
        WindowSize := ⟨800, 800⟩ }
    MsgQueue := []
    stop := false
    stopped := false }

/-- The loop returned by `NewLoop` on `nilScreen`: it has no surface. -/
def surfacelessLoop : Loop :=
  { Receiver := none
    State :=
      { Texture := none
        Background := Color.RGBA 0 0xff 0 0xff
        BgRect := none
        Figures := [⟨400, 400⟩]
        Screen := some nilScreen
        WindowSize := ⟨800, 800⟩ }
    MsgQueue := []
    stop := false
    stopped := false }

/-- The loop of an outcome, when the process has not ended. -/
def loopOf (r : Except Crash (Loop × List Event)) : Option Loop :=
  match r with
  | Except.ok (l, _) => some l
  | Except.error _ => none

/-- The binary64 value `0.5`. -/
def F64.half : F64 := F64.fin false (2 ^ 52) (-53)

/-! ## The parser as the specification words it -/

/-- The lines the scanner hands to the loop of `Parser.Parse`. -/
def inputLines (r : Reader) : List String := (scanLines r.errWithData r.data.data []).1

/-- The recognised commands and their arities: `white`, `green`, `update`,
`reset` (0), `bgrect` (4), `figure`, `move` (2). -/
def arity (command : String) : Option Nat :=
  if command = "white" ∨ command = "green" ∨ command = "update" ∨ command = "reset" then some 0
  else if command = "bgrect" then some 4
  else if command = "figure" ∨ command = "move" then some 2
  else none

/-- A well-formed line: after the comment is stripped, its first field,
lower-cased, is a recognised command, the remaining fields are as many as
its arity, and each of them is accepted by `ParseFloat`. -/
def wellFormedLine (line : String) : Bool :=
  match Fields (stripComment line) with
  | [] => false
  | f0 :: args =>
      match arity (ToLower f0) with
      | none => false
      | some n => decide (args.length = n) && args.all (fun a => (ParseFloat a).isSome)

/-- Clamping to `[0,1]` as the specification words it: a value outside the
interval goes to the nearest bound. -/
def clampUnit (v : F64) : F64 :=
  if F64.lt v F64.zero then F64.zero else if F64.gt v F64.one then F64.one else v

/-- The value of a numeric argument: parsed, then clamped. -/
def argValue (a : String) : F64 :=
  match ParseFloat a with
  | some v => clampUnit v
  | none => F64.zero

/-- The operation a command and its arguments stand for, the arguments in
argument order. -/
def operationOf (command : String) (args : List String) : Option Operation :=
  if command = "white" then some Operation.WhiteOperation
  else if command = "green" then some Operation.GreenOperation
  else if command = "update" then some Operation.UpdateOperation
  else if command = "reset" then some Operation.ResetOperation
  else
    match args with
    | [a, b, c, d] =>
        if command = "bgrect" then
          some (Operation.BgRectOperation (argValue a) (argValue b) (argValue c) (argValue d))
        else none
    | [a, b] =>
        if command = "figure" then some (Operation.FigureOperation (argValue a) (argValue b))
        else if command = "move" then some (Operation.MoveOperation (argValue a) (argValue b))
        else none
    | _ => none

/-- The operation of a line: that of its command and arguments when the line
is well-formed, none otherwise. -/
def lineOperation (line : String) : Option Operation :=
  if wellFormedLine line then
    match Fields (stripComment line) with
    | f0 :: args => operationOf (ToLower f0) args
    | [] => none
  else none

/-! ## Auxiliary definitions: painting, scanning, lifecycle -/

/-- The `Fill` calls among the calls made, in order. -/
def fillsOf (ev : List Event) : List Event :=
  ev.filter (fun e => match e with
    | Event.Fill _ _ _ => true
    | _ => false)

/-- The pixel rectangle of a relative rectangle on a surface: each relative
coordinate times the width or height of the bounds, converted to `int`. -/
def pixelRect (tex : Texture) (r : RelativeRectangle) : Rectangle :=
  Rect (toPixel r.X1 tex.bounds.Dx) (toPixel r.Y1 tex.bounds.Dy)
    (toPixel r.X2 tex.bounds.Dx) (toPixel r.Y2 tex.bounds.Dy)

/-- The full repaint of a state on the surface `tex`, as the specification
orders it: the whole bounds in the background colour, then the background
rectangle in black if one is set, then the two bars of each figure in list
order. -/
def fullRepaint (tex : Texture) (state : LoopState) : List Event :=
  Event.Fill tex tex.bounds state.Background ::
    ((match state.BgRect with
      | none => []
      | some r => [Event.Fill tex (pixelRect tex r) Color.Black]) ++
     (state.Figures.map (fun f => drawFigure tex f.X f.Y)).flatten)

/-- A loop without a surface whose screen can make one. -/
def recreatingLoop : Loop :=
  { surfacelessLoop with State := { surfacelessLoop.State with Screen := some okScreen } }

/-- A screen whose `NewTexture` returns a non-nil error. -/
def failingScreen : Screen := ⟨fun _ => (none, true)⟩

/-- A loop without a surface whose screen fails to make one. -/
def failingLoop : Loop :=
  { surfacelessLoop with State := { surfacelessLoop.State with Screen := some failingScreen } }

/-- The line with its first white-space-separated field lower-cased: the
leading white space, the lower-cased run of non-space characters after it,
and the rest unchanged. -/
def lowerFirstField (line : String) : String :=
  let lead := line.data.takeWhile isSpace
  let rest := line.data.dropWhile isSpace
  String.mk (lead ++ (rest.takeWhile (fun c => !isSpace c)).map toLowerRune ++
    rest.dropWhile (fun c => !isSpace c))

/-- The lines of a text as the scanner delimits them, before the carriage
return is dropped: the runs between line feeds, each with whether a line feed
ends it; `cur` is the run being read, reversed. -/
def rawLines : List Char → List Char → List (List Char × Bool)
  | [], cur => if cur.isEmpty then [] else [(cur.reverse, false)]
  | c :: cs, cur => if c = '\n' then (cur.reverse, true) :: rawLines cs [] else rawLines cs (c :: cur)

/-- Whether a raw line is too long for the scanner: 65536 bytes or more
before its line feed; for a last line without line feed, more than 65536
bytes, or exactly 65536 when the end of the input is not known by then. -/
def lineTooLong (eofKnown : Bool) (line : List Char × Bool) : Bool :=
  if line.2 then decide (MaxScanTokenSize ≤ byteLen line.1)
  else decide (MaxScanTokenSize < byteLen line.1) ||
    (decide (byteLen line.1 = MaxScanTokenSize) && !eofKnown)

/-- Whether the text of a reader has a line too long for the scanner. -/
def hasLongLine (r : Reader) : Bool :=
  (rawLines r.data.data []).any (lineTooLong r.errWithData)

/-- What the `select` of an iteration of `Loop.Start` takes. -/
inductive Choice where
  | stop
  | msg
  deriving DecidableEq, Repr

/-- One iteration of `Loop.Start` in a program that runs `Start` once: none
is left once `Start` has returned (`stopped` closed); otherwise the chosen
case is taken if it is ready. -/
def iterate (l : Loop) (c : Choice) : Option (Except Crash (Loop × List Event)) :=
  if l.stopped then none
  else
    match c with
    | Choice.stop => (recvStop l).map Except.ok
    | Choice.msg => recvOp l

/-- A call a client of the loop can make at any time. -/
inductive ClientCall where
  | Post (op : Operation)
  | SetReceiver (r : Option Receiver)
  deriving DecidableEq, Repr

/-- The loop after a client call. -/
def ClientCall.run (c : ClientCall) (l : Loop) : Loop :=
  match c with
  | ClientCall.Post op => Painter.Post l op
  | ClientCall.SetReceiver r => Painter.SetReceiver l r

/-- The loop after a sequence of client calls. -/
def afterCalls (l : Loop) (calls : List ClientCall) : Loop :=
  calls.foldl (fun l c => c.run l) l

/-- The calls made in an outcome, when the process has not ended. -/
def eventsOf (r : Except Crash (Loop × List Event)) : Option (List Event) :=
  match r with
  | Except.ok (_, ev) => some ev
  | Except.error _ => none

/-- The fields with the first one lower-cased. -/
def lowerHeadField (fs : List String) : List String :=
  match fs with
  | [] => []
  | f0 :: args => ToLower f0 :: args

/-- A reader over one line of 65536 letters, ending with `io.EOF`. -/
def longLineReader : Reader := Reader.ofString (String.mk (List.replicate 65536 'a'))

/-- The initial loop with a full queue of 100 operations. -/
def fullLoop : Loop :=
  { initialLoop with MsgQueue := List.replicate 100 Operation.GreenOperation }

/-- The initial loop after `Stop` and the iteration that takes the stop
signal. -/
def stoppedLoop : Loop :=
  { initialLoop with
    State := { initialLoop.State with Texture := none }
    stop := true
    stopped := true }

/-! ## Auxiliary definitions: the rectangles of a figure -/

/-- The figure width of `Loop.drawFigure`: half the width of the bounds, at
least 20. -/
def figureWidth (texture : Texture) : Int :=
  if Int.tdiv texture.bounds.Dx 2 < 20 then 20 else Int.tdiv texture.bounds.Dx 2

/-- The figure height of `Loop.drawFigure`: half the height of the bounds, at
least 20. -/
def figureHeight (texture : Texture) : Int :=
  if Int.tdiv texture.bounds.Dy 2 < 20 then 20 else Int.tdiv texture.bounds.Dy 2

/-- The line width of `Loop.drawFigure`: an eighth of the figure height, at
least 2. -/
def lineWidth (texture : Texture) : Int :=
  if Int.tdiv (figureHeight texture) 8 < 2 then 2 else Int.tdiv (figureHeight texture) 8

/-- The vertical bar `vRect` of `Loop.drawFigure`. -/
def vRect (texture : Texture) (x y : Int) : Rectangle :=
  Rect
    (wrapInt (x - Int.tdiv (figureWidth texture) 2))
    (wrapInt (y - Int.tdiv (figureHeight texture) 2))
    (wrapInt (wrapInt (x - Int.tdiv (figureWidth texture) 2) + lineWidth texture))
    (wrapInt (y + Int.tdiv (figureHeight texture) 2))

/-- The horizontal bar `hRect` of `Loop.drawFigure`. -/
def hRect (texture : Texture) (x y : Int) : Rectangle :=
  Rect
    (wrapInt (wrapInt (x - Int.tdiv (figureWidth texture) 2) + lineWidth texture))
    (wrapInt (y - Int.tdiv (lineWidth texture) 2))
    (wrapInt (x + Int.tdiv (figureWidth texture) 2))
    (wrapInt (y + Int.tdiv (lineWidth texture) 2))

/-- Go `Rectangle.Empty`: no point lies in the half-open rectangle. -/
def Rectangle.Empty (r : Rectangle) : Bool :=
  decide (r.Min.X ≥ r.Max.X) || decide (r.Min.Y ≥ r.Max.Y)

/-- Go `Rectangle.Overlaps`: the two half-open rectangles have a point in
common. -/
def Rectangle.Overlaps (r s : Rectangle) : Bool :=
  !r.Empty && !s.Empty &&
    decide (r.Min.X < s.Max.X) && decide (s.Min.X < r.Max.X) &&
    decide (r.Min.Y < s.Max.Y) && decide (s.Min.Y < r.Max.Y)

/-- The number of pixels of a rectangle with `Min ≤ Max`. -/
def Rectangle.area (r : Rectangle) : Int := (r.Max.X - r.Min.X) * (r.Max.Y - r.Min.Y)

/-- The binary64 value nearest to `0.9`. -/
def F64.ninetenths : F64 := F64.round false 9 10

/-- The binary64 value nearest to `0.1`. -/
def F64.tenth : F64 := F64.round false 1 10

/-- A texture with bounds `Rectangle{Max: (w, h)}`. -/
def texOf (w h : Int) : Texture := ⟨0, ⟨⟨0, 0⟩, ⟨w, h⟩⟩⟩

/-- The exponent `F64.round` chooses for `p / q`: the one that puts the
quotient between `2^52` and `2^53`, and no less than `-1074`. -/
def F64.roundExp (p q : Nat) : Int :=
  let e0 : Int := (bitLen p : Int) - (bitLen q : Int) - 52
  let e1 : Int := if p * 2 ^ (-e0).toNat < q * 2 ^ e0.toNat * 2 ^ 52 then e0 - 1 else e0
  if e1 < -1074 then -1074 else e1

/-- The mantissa `F64.round` chooses for `p / q` at the exponent `e`: the
integer nearest to `p / (q * 2^e)`, ties to even. -/
def F64.roundMant (p q : Nat) (e : Int) : Nat :=
  let num := p * 2 ^ (-e).toNat
  let den := q * 2 ^ e.toNat
  let m0 := num / den
  let r := num % den
  if den < 2 * r ∨ (2 * r = den ∧ m0 % 2 = 1) then m0 + 1 else m0

set_option maxRecDepth 100000
set_option exponentiation.threshold 5000

/-! ## Theorems: operations on the canvas state -/

/-- C4: on a state with a surface, `MoveOperation{X,Y}.Do` keeps the number
of figures and leaves every figure at the single target
`(int(X*Dx), int(Y*Dy))` computed from the bounds of the surface. -/
theorem move_all_figures_to_target (X Y : F64) (state : LoopState) (tex : Texture)
    (h : state.Texture = some tex) :
    ((Operation.MoveOperation X Y).Do state).1.Figures.length = state.Figures.length ∧
    ∀ f ∈ ((Operation.MoveOperation X Y).Do state).1.Figures,
      f = ⟨toPixel X tex.bounds.Dx, toPixel Y tex.bounds.Dy⟩ := by
  simp only [Operation.Do, h]
  refine ⟨by simp, ?_⟩
  intro f hf
  simp only [List.mem_map] at hf
  obtain ⟨_, _, rfl⟩ := hf
  rfl

/-- C5: whatever the state, `ResetOperation.Do` leaves a black background,
no background rectangle and no figures, and a following `UpdateOperation.Do`
leaves that state as it is. -/
theorem reset_then_update (state : LoopState) :
    (Operation.ResetOperation.Do state).1.Background = Color.Black ∧
    (Operation.ResetOperation.Do state).1.BgRect = none ∧
    (Operation.ResetOperation.Do state).1.Figures = [] ∧
    (Operation.UpdateOperation.Do (Operation.ResetOperation.Do state).1).1 =
      (Operation.ResetOperation.Do state).1 :=
  ⟨rfl, rfl, rfl, rfl⟩

/-- C6: on a state whose surface has bounds of width `Dx` and height `Dy`,
`FigureOperation{X,Y}.Do` appends the one figure `(int(X*Dx), int(Y*Dy))`
after the figures already there and changes nothing else; without a surface
it leaves the state unchanged. -/
theorem figure_appends_one (X Y : F64) (state : LoopState) :
    (∀ tex, state.Texture = some tex →
      ((Operation.FigureOperation X Y).Do state).1 =
        { state with Figures := state.Figures ++ [⟨toPixel X tex.bounds.Dx, toPixel Y tex.bounds.Dy⟩] }) ∧
    (state.Texture = none → ((Operation.FigureOperation X Y).Do state).1 = state) := by
  constructor
  · intro tex h
    simp only [Operation.Do, h]
  · intro h
    simp only [Operation.Do, h]

/-- C7: `Do` returns true exactly for `UpdateOperation`, on every state. -/
theorem do_requests_update_iff (o : Operation) (state : LoopState) :
    (o.Do state).2 = true ↔ o = Operation.UpdateOperation := by
  cases o <;> simp only [Operation.Do] <;> try (cases state.Texture <;> simp)

/-- C8: `Post` is a total function of the loop (it never waits); on a queue
of fewer than 100 operations it appends the operation at the tail and changes
nothing else, on a queue of 100 it returns the loop unchanged, and so a queue
within its capacity stays within it. -/
theorem post_bounded_queue (l : Loop) (op : Operation) :
    (l.MsgQueue.length < 100 →
      (Post l op).MsgQueue = l.MsgQueue ++ [op] ∧ (Post l op).State = l.State ∧
      (Post l op).Receiver = l.Receiver) ∧
    (l.MsgQueue.length = 100 → Post l op = l) ∧
    (l.MsgQueue.length ≤ 100 → (Post l op).MsgQueue.length ≤ 100) := by
  refine ⟨?_, ?_, ?_⟩
  · intro h
    simp [Post, queueCap, h]
  · intro h
    simp [Post, queueCap, h]
  · intro h
    unfold Post queueCap
    split
    · simp only [List.length_append, List.length_singleton]
      omega
    · exact h

/-! ## Theorems: the loop -/

/-- The surface handle is never changed by `Do`. -/
theorem Do_Texture (o : Operation) (state : LoopState) :
    (o.Do state).1.Texture = state.Texture := by
  cases o <;> simp only [Operation.Do] <;> try rfl
  all_goals (cases h : state.Texture <;> simp [h])

/-- The screen is never changed by `Do`. -/
theorem Do_Screen (o : Operation) (state : LoopState) :
    (o.Do state).1.Screen = state.Screen := by
  cases o <;> simp only [Operation.Do] <;> try rfl
  all_goals (cases h : state.Texture <;> simp)

/-- The surface handle is never changed by `applyAll`. -/
theorem applyAll_Texture (ops : List Operation) (state : LoopState) :
    (applyAll state ops).Texture = state.Texture := by
  induction ops generalizing state with
  | nil => rfl
  | cons o os ih =>
      show (applyAll (o.Do state).1 os).Texture = state.Texture
      rw [ih, Do_Texture]

/-- The screen is never changed by `applyAll`. -/
theorem applyAll_Screen (ops : List Operation) (state : LoopState) :
    (applyAll state ops).Screen = state.Screen := by
  induction ops generalizing state with
  | nil => rfl
  | cons o os ih =>
      show (applyAll (o.Do state).1 os).Screen = state.Screen
      rw [ih, Do_Screen]

/-- Posting onto a queue with room for all of `ops` appends them in order. -/
theorem postAll_queue (ops : List Operation) (l : Loop)
    (h : l.MsgQueue.length + ops.length ≤ 100) :
    postAll l ops = { l with MsgQueue := l.MsgQueue ++ ops } := by
  induction ops generalizing l with
  | nil => simp [postAll]
  | cons o os ih =>
      have hlt : l.MsgQueue.length < queueCap := by
        simp only [List.length_cons] at h
        unfold queueCap
        omega
      have hp : Post l o = { l with MsgQueue := l.MsgQueue ++ [o] } := by
        simp [Post, hlt]
      show postAll (Post l o) os = _
      rw [hp, ih]
      · simp
      · simp only [List.length_append, List.length_cons, List.length_nil] at h ⊢
        omega

/-- When the loop does not have to recreate the surface, an iteration is
`applyOp`. -/
theorem processOp_eq_applyOp (l : Loop) (op : Operation)
    (hs : ¬ (l.State.Texture.isNone ∧ l.State.Screen.isSome)) :
    processOp l op = Except.ok (applyOp l op) := by
  unfold processOp
  rw [if_neg hs]

/-- Emptying the queue of a loop that does not have to recreate the surface
applies `Do` of the queued operations in order. -/
theorem drainN_applyAll (q : List Operation) (l : Loop) (n : Nat)
    (hq : l.MsgQueue = q) (hn : q.length ≤ n)
    (hs : ¬ (l.State.Texture.isNone ∧ l.State.Screen.isSome)) :
    ∃ ev, drainN n l =
      Except.ok ({ l with State := applyAll l.State q, MsgQueue := [] }, ev) := by
  induction q generalizing l n with
  | nil =>
      obtain ⟨rcv, st, queue, stop, stopped⟩ := l
      simp only at hq
      subst hq
      cases n with
      | zero => exact ⟨[], rfl⟩
      | succ n => exact ⟨[], rfl⟩
  | cons o os ih =>
      cases n with
      | zero => simp at hn
      | succ n =>
          have hs1 : ¬ ((({ l with MsgQueue := os } : Loop).State.Texture.isNone) ∧
              (({ l with MsgQueue := os } : Loop).State.Screen.isSome)) := hs
          have hstep : recvOp l = some (Except.ok (applyOp { l with MsgQueue := os } o)) := by
            simp only [recvOp, hq]
            rw [processOp_eq_applyOp _ _ hs1]
          have hs2 : ¬ ((applyOp { l with MsgQueue := os } o).1.State.Texture.isNone ∧
              (applyOp { l with MsgQueue := os } o).1.State.Screen.isSome) := by
            simpa [applyOp, Do_Texture, Do_Screen] using hs
          obtain ⟨ev, hev⟩ := ih (applyOp { l with MsgQueue := os } o).1 n rfl
            (by simpa using hn) hs2
          refine ⟨(applyOp { l with MsgQueue := os } o).2 ++ ev, ?_⟩
          simp only [drainN, hstep, hev]
          rfl

/-- C9 (amended): operations posted one after another onto an empty queue,
at most 100 of them, are queued in posting order, and the loop, unless it is
in the state where the surface is missing while a screen is set, empties the
queue by applying `Do` of `o1, ..., ok` in that order: the canvas state it
ends in is `applyAll` of the starting state. -/
theorem fifo_apply (l : Loop) (ops : List Operation)
    (hq : l.MsgQueue = []) (hk : ops.length ≤ 100)
    (hs : ¬ (l.State.Texture.isNone ∧ l.State.Screen.isSome)) :
    (postAll l ops).MsgQueue = ops ∧
    ∃ ev, drain (postAll l ops) =
      Except.ok ({ l with State := applyAll l.State ops, MsgQueue := [] }, ev) := by
  have hpost : postAll l ops = { l with MsgQueue := ops } := by
    rw [postAll_queue ops l (by simp [hq, hk]), hq]
    rfl
  refine ⟨by rw [hpost], ?_⟩
  rw [hpost]
  exact drainN_applyAll ops { l with MsgQueue := ops } ops.length rfl (Nat.le_refl _) hs

/-- C9, witness: `green`, `figure 0.5 0.5`, `update` posted to the initial
800x800 loop give a green background and the figures `(400,400), (400,400)`. -/
theorem fifo_apply_witness :
    (applyAll initialLoop.State
      [Operation.GreenOperation, Operation.FigureOperation F64.half F64.half,
        Operation.UpdateOperation]).Background = Color.RGBA 0 0xff 0 0xff ∧
    (applyAll initialLoop.State
      [Operation.GreenOperation, Operation.FigureOperation F64.half F64.half,
        Operation.UpdateOperation]).Figures = [⟨400, 400⟩, ⟨400, 400⟩] ∧
    ((postAll initialLoop
      [Operation.GreenOperation, Operation.FigureOperation F64.half F64.half,
        Operation.UpdateOperation]).MsgQueue =
      [Operation.GreenOperation, Operation.FigureOperation F64.half F64.half,
        Operation.UpdateOperation] ∧
    ∃ ev, drain (postAll initialLoop
      [Operation.GreenOperation, Operation.FigureOperation F64.half F64.half,
        Operation.UpdateOperation]) =
      Except.ok ({ initialLoop with
        State := applyAll initialLoop.State
          [Operation.GreenOperation, Operation.FigureOperation F64.half F64.half,
            Operation.UpdateOperation],
        MsgQueue := [] }, ev)) :=
  ⟨by decide, by decide,
    fifo_apply initialLoop
      [Operation.GreenOperation, Operation.FigureOperation F64.half F64.half,
        Operation.UpdateOperation] rfl (by decide) (by decide)⟩

/-- C9 as stated fails on a loop without a surface: `NewLoop` on a screen
whose `NewTexture` returns a nil texture and a nil error gives a loop with
an empty queue; `white` posted to it is dequeued and skipped, so the
background stays green, whereas `WhiteOperation.Do` on the starting state
makes it white. -/
theorem fifo_apply_counterexample :
    loopOf (NewLoop (some nilScreen)) = some surfacelessLoop ∧
    surfacelessLoop.MsgQueue = [] ∧
    (loopOf (drain (postAll surfacelessLoop [Operation.WhiteOperation]))).map
      (fun l => (l.MsgQueue, l.State.Background)) = some ([], Color.RGBA 0 0xff 0 0xff) ∧
    (applyAll surfacelessLoop.State [Operation.WhiteOperation]).Background = Color.White ∧
    (loopOf (drain (postAll surfacelessLoop [Operation.WhiteOperation]))).map
      (fun l => l.State.Background) ≠
      some (applyAll surfacelessLoop.State [Operation.WhiteOperation]).Background :=
  ⟨rfl, rfl, by decide, by decide, by decide⟩

/-- Painting makes no `Update` call. -/
theorem updatesOf_drawCurrentState (state : LoopState) :
    updatesOf (drawCurrentState state) = [] := by
  unfold drawCurrentState
  cases state.Texture with
  | none => rfl
  | some tex =>
      have hfig : ∀ fs : List Figure,
          updatesOf (fs.map (fun f => drawFigure tex f.X f.Y)).flatten = [] := by
        intro fs
        induction fs with
        | nil => rfl
        | cons f fs ih =>
            simp only [List.map_cons, List.flatten_cons, updatesOf, List.filterMap_append] at ih ⊢
            rw [ih]
            rfl
      simp only [updatesOf, List.filterMap_append] at hfig ⊢
      rw [hfig]
      cases state.BgRect <;> rfl

/-- The `Update` calls of the second half of an iteration. -/
theorem updatesOf_applyOp (l : Loop) (op : Operation) :
    updatesOf (applyOp l op).2 =
      match l.Receiver, l.State.Texture with
      | some r, some t => if (op.Do l.State).2 then [(r, t)] else []
      | _, _ => [] := by
  unfold applyOp
  simp only [updatesOf, List.filterMap_append]
  have hd : ∀ st, List.filterMap (fun e => match e with
      | Event.Update r t => some (r, t)
      | _ => none) (drawCurrentState st) = [] := updatesOf_drawCurrentState
  have h1 : List.filterMap (fun e => match e with
      | Event.Update r t => some (r, t)
      | _ => none)
      (if op = Operation.UpdateOperation then [] else drawCurrentState (op.Do l.State).1) = [] := by
    split
    · rfl
    · exact hd _
  rw [h1, Do_Texture]
  cases l.Receiver <;> cases l.State.Texture <;> simp
  split <;> simp

/-- The flag returned by `Do` does not depend on the state. -/
theorem Do_flag (o : Operation) (s1 s2 : LoopState) : (o.Do s1).2 = (o.Do s2).2 := by
  cases o <;> simp only [Operation.Do] <;> try rfl
  all_goals (cases s1.Texture <;> cases s2.Texture <;> rfl)

/-- The `Update` calls of a concatenation are those of its two parts. -/
theorem updatesOf_append (a b : List Event) : updatesOf (a ++ b) = updatesOf a ++ updatesOf b := by
  simp [updatesOf, List.filterMap_append]

/-- Recreating the surface makes no `Update` call. -/
theorem updatesOf_resetTexture (state state1 : LoopState) (ev : List Event)
    (h : resetTexture state = Except.ok (state1, ev)) : updatesOf ev = [] := by
  unfold resetTexture at h
  cases hscr : state.Screen with
  | none => simp [hscr] at h
  | some scr =>
      simp only [hscr] at h
      generalize (if state.WindowSize.X = 0 ∨ state.WindowSize.Y = 0 then (⟨800, 800⟩ : Point)
        else state.WindowSize) = size at h
      by_cases hb : (scr.NewTexture size).2 = true
      · simp [hb] at h
      · simp only [hb, Bool.false_eq_true, if_false, Except.ok.injEq, Prod.mk.injEq] at h
        obtain ⟨_, h2⟩ := h
        rw [← h2, updatesOf_append, updatesOf_append, updatesOf_drawCurrentState]
        cases state.Texture <;> rfl

/-- Emptying the queue of a loop with a receiver and a surface delivers one
`Update` for each queued `UpdateOperation`. -/
theorem drainN_updates (q : List Operation) (l : Loop) (n : Nat) (r : Receiver) (t : Texture)
    (hq : l.MsgQueue = q) (hn : q.length ≤ n)
    (hr : l.Receiver = some r) (ht : l.State.Texture = some t) :
    ∃ l1 ev, drainN n l = Except.ok (l1, ev) ∧
      updatesOf ev = List.replicate (q.count Operation.UpdateOperation) (r, t) := by
  induction q generalizing l n with
  | nil =>
      cases n with
      | zero => exact ⟨l, [], rfl, rfl⟩
      | succ n => exact ⟨l, [], by simp [drainN, recvOp, hq], rfl⟩
  | cons o os ih =>
      cases n with
      | zero => simp at hn
      | succ n =>
          have hs1 : ¬ ((({ l with MsgQueue := os } : Loop).State.Texture.isNone) ∧
              (({ l with MsgQueue := os } : Loop).State.Screen.isSome)) := by
            simp [ht]
          have hstep : recvOp l = some (Except.ok (applyOp { l with MsgQueue := os } o)) := by
            simp only [recvOp, hq]
            rw [processOp_eq_applyOp _ _ hs1]
          have ht2 : (applyOp { l with MsgQueue := os } o).1.State.Texture = some t := by
            simp [applyOp, Do_Texture, ht]
          obtain ⟨l2, ev, hev, hup⟩ := ih (applyOp { l with MsgQueue := os } o).1 n rfl
            (by simpa using hn) hr ht2
          refine ⟨l2, (applyOp { l with MsgQueue := os } o).2 ++ ev, ?_, ?_⟩
          · simp only [drainN, hstep, hev]
          · rw [updatesOf_append, hup, updatesOf_applyOp]
            simp only [hr, ht]
            cases o <;> simp [Operation.Do, ht, List.count_cons, List.replicate_succ']
            rw [← List.replicate_succ, List.replicate_succ']

/-- C10: an iteration of the loop that handles `op` calls the receiver's
`Update` once, with the surface the state holds at that moment, when `Do`
returned true, a receiver is attached and the surface exists, and does not
call it otherwise; and emptying a queue with a receiver attached and a
surface present delivers exactly one `Update` per queued `UpdateOperation`,
each with that surface. -/
theorem notify_policy :
    (∀ (l : Loop) (op : Operation) (l1 : Loop) (ev : List Event),
      processOp l op = Except.ok (l1, ev) →
      updatesOf ev =
        match l.Receiver, l1.State.Texture with
        | some r, some t => if (op.Do l.State).2 then [(r, t)] else []
        | _, _ => []) ∧
    (∀ (l : Loop) (r : Receiver) (t : Texture),
      l.Receiver = some r → l.State.Texture = some t →
      ∃ l1 ev, drain l = Except.ok (l1, ev) ∧
        updatesOf ev = List.replicate (l.MsgQueue.count Operation.UpdateOperation) (r, t)) := by
  constructor
  · intro l op l1 ev h
    unfold processOp at h
    split at h
    · cases hrt : resetTexture l.State with
      | error c => simp [hrt] at h
      | ok p =>
          obtain ⟨state1, ev0⟩ := p
          simp only [hrt] at h
          have hev0 := updatesOf_resetTexture _ _ _ hrt
          split at h
          · rename_i hnone
            simp only [Except.ok.injEq, Prod.mk.injEq] at h
            obtain ⟨h1, h2⟩ := h
            subst h1 h2
            rw [hev0]
            cases hrc : l.Receiver <;> cases hst : state1.Texture <;> simp_all
          · simp only [Except.ok.injEq, Prod.mk.injEq] at h
            obtain ⟨h1, h2⟩ := h
            subst h1 h2
            rw [updatesOf_append, hev0, List.nil_append, updatesOf_applyOp]
            simp only [applyOp, Do_Texture]
            rw [Do_flag op state1 l.State]
    · simp only [Except.ok.injEq] at h
      have h1 : l1 = (applyOp l op).1 := by rw [h]
      have h2 : ev = (applyOp l op).2 := by rw [h]
      subst h1 h2
      rw [updatesOf_applyOp]
      simp only [applyOp, Do_Texture]
  · intro l r t hr ht
    exact drainN_updates l.MsgQueue l l.MsgQueue.length r t rfl (Nat.le_refl _) hr ht

/-! ## Theorems: the parser -/

/-- Leading white space does not change the fields. -/
theorem fieldsAux_dropWhile (l : List Char) :
    fieldsAux (l.dropWhile isSpace) [] = fieldsAux l [] := by
  induction l with
  | nil => rfl
  | cons c cs ih =>
      by_cases hc : isSpace c = true
      · rw [List.dropWhile_cons_of_pos hc, ih]
        simp [fieldsAux, hc]
      · rw [List.dropWhile_cons_of_neg hc]

/-- One trailing white-space character does not change the fields. -/
theorem fieldsAux_append_space (l cur : List Char) (c : Char) (hc : isSpace c = true) :
    fieldsAux (l ++ [c]) cur = fieldsAux l cur := by
  induction l generalizing cur with
  | nil => simp [fieldsAux, hc]
  | cons d ds ih =>
      show fieldsAux (d :: (ds ++ [c])) cur = fieldsAux (d :: ds) cur
      simp only [fieldsAux]
      split
      · split <;> rw [ih]
      · rw [ih]

/-- Trailing white space does not change the fields. -/
theorem fieldsAux_dropTrailing (r cur : List Char) :
    fieldsAux ((r.dropWhile isSpace).reverse) cur = fieldsAux r.reverse cur := by
  induction r with
  | nil => rfl
  | cons c cs ih =>
      by_cases hc : isSpace c = true
      · rw [List.dropWhile_cons_of_pos hc, ih, List.reverse_cons, fieldsAux_append_space _ _ _ hc]
      · rw [List.dropWhile_cons_of_neg hc]

/-- Trimming a string does not change its fields. -/
theorem Fields_TrimSpace (s : String) : Fields (TrimSpace s) = Fields s := by
  unfold Fields TrimSpace
  show fieldsAux (((s.data.dropWhile isSpace).reverse.dropWhile isSpace).reverse) [] = _
  rw [fieldsAux_dropTrailing, List.reverse_reverse, fieldsAux_dropWhile]

/-- A line whose first non-space character is `#` has no field before the
comment. -/
theorem fieldsAux_takeWhile_of_hash (l rest : List Char)
    (h : l.dropWhile isSpace = '#' :: rest) :
    fieldsAux (l.takeWhile (fun c => c != '#')) [] = [] := by
  induction l with
  | nil => simp at h
  | cons c cs ih =>
      by_cases hc : isSpace c = true
      · rw [List.dropWhile_cons_of_pos hc] at h
        have hne : (c != '#') = true := by
          by_cases he : c = '#'
          · subst he
            exact absurd hc (by decide)
          · simpa using he
        have htw : List.takeWhile (fun c => c != '#') (c :: cs) =
            c :: List.takeWhile (fun c => c != '#') cs := by
          simp only [List.takeWhile_cons, hne, if_true]
        rw [htw]
        simp only [fieldsAux, hc, if_true, List.isEmpty_nil]
        exact ih h
      · rw [List.dropWhile_cons_of_neg hc] at h
        have he : c = '#' := by
          injection h
        subst he
        rfl

/-- The clamping of `ParseCoords` is the clamping to the nearest bound. -/
theorem clamp_eq_clampUnit (v : F64) : clamp v = clampUnit v := by
  have h01 : F64.gt F64.zero F64.one = false := by decide
  unfold clamp clampUnit
  cases h0 : F64.lt v F64.zero <;> cases h1 : F64.gt v F64.one <;> simp [h0, h1, h01]

/-- The loop of `ParseCoords` succeeds exactly when every argument parses,
and then returns the clamped values in argument order. -/
theorem parseCoordsLoop_eq (args : List String) :
    parseCoordsLoop args =
      if args.all (fun a => (ParseFloat a).isSome) then some (args.map argValue) else none := by
  induction args with
  | nil => rfl
  | cons a as ih =>
      unfold parseCoordsLoop
      rw [ih]
      cases ha : ParseFloat a with
      | none => simp [ha]
      | some v =>
          by_cases hall : (as.all fun a => (ParseFloat a).isSome) = true
          · simp [ha, hall, argValue, clamp_eq_clampUnit]
          · simp [ha, hall]

/-- Success of `ParseCoords`: exactly when the arguments are `count` many and
every one parses. -/
theorem ParseCoords_eq (args : List String) (count : Nat) :
    ParseCoords args count =
      if args.length = count ∧ (args.all fun a => (ParseFloat a).isSome) = true then
        some (args.map argValue)
      else none := by
  unfold ParseCoords
  rw [parseCoordsLoop_eq]
  by_cases hl : args.length = count <;>
    by_cases hall : (args.all fun a => (ParseFloat a).isSome) = true <;> simp [hl, hall]

/-- The operation of a list of fields, in the words of the specification. -/
theorem parseLine_eq (line : String) :
    parseLine line =
      match Fields line with
      | [] => none
      | f0 :: args =>
          match arity (ToLower f0) with
          | none => none
          | some n =>
              if args.length = n ∧ (args.all fun a => (ParseFloat a).isSome) = true then
                operationOf (ToLower f0) args
              else none := by
  unfold parseLine
  cases hf : Fields line with
  | nil => rfl
  | cons f0 args =>
      simp only []
      by_cases h1 : ToLower f0 = "white"
      · cases args <;> simp [h1, arity, operationOf]
      by_cases h2 : ToLower f0 = "green"
      · cases args <;> simp [h2, arity, operationOf]
      by_cases h3 : ToLower f0 = "update"
      · cases args <;> simp [h3, arity, operationOf]
      by_cases h4 : ToLower f0 = "reset"
      · cases args <;> simp [h4, arity, operationOf]
      by_cases h5 : ToLower f0 = "bgrect"
      · simp only [h5, arity, operationOf, ParseCoords_eq]
        by_cases hall : (args.all fun a => (ParseFloat a).isSome) = true
        · match args, hall with
          | [], _ => simp
          | [_], _ => simp
          | [_, _], _ => simp
          | [_, _, _], _ => simp
          | [_, _, _, _], hall => simp [hall]
          | _ :: _ :: _ :: _ :: _ :: _, _ => simp
        · simp [hall]
      by_cases h6 : ToLower f0 = "figure"
      · simp only [h6, arity, operationOf, ParseCoords_eq]
        by_cases hall : (args.all fun a => (ParseFloat a).isSome) = true
        · match args, hall with
          | [], _ => simp
          | [_], _ => simp
          | [_, _], hall => simp [hall]
          | _ :: _ :: _ :: _, _ => simp
        · simp [hall]
      by_cases h7 : ToLower f0 = "move"
      · simp only [h7, arity, operationOf, ParseCoords_eq]
        by_cases hall : (args.all fun a => (ParseFloat a).isSome) = true
        · match args, hall with
          | [], _ => simp
          | [_], _ => simp
          | [_, _], hall => simp [hall]
          | _ :: _ :: _ :: _, _ => simp
        · simp [hall]
      simp [h1, h2, h3, h4, h5, h6, h7, arity]

/-- A line that is empty after trimming has no fields. -/
theorem Fields_of_TrimSpace_empty (s : String) (h : TrimSpace s = "") : Fields s = [] := by
  rw [← Fields_TrimSpace, h]
  rfl

/-- A line whose trimmed text starts with `#` has no field before the
comment. -/
theorem Fields_stripComment_of_hash (line : String)
    (h : HasPrefix (TrimSpace line) "#" = true) : Fields (stripComment line) = [] := by
  unfold HasPrefix TrimSpace at h
  have hpre : ((line.data.dropWhile isSpace).reverse.dropWhile isSpace).reverse <+:
      line.data.dropWhile isSpace := by
    have hsuf := List.dropWhile_suffix isSpace (l := (line.data.dropWhile isSpace).reverse)
    have := List.reverse_prefix.mpr hsuf
    simpa using this
  have hhash : ['#'] <+: ((line.data.dropWhile isSpace).reverse.dropWhile isSpace).reverse := by
    have := List.isPrefixOf_iff_prefix.mp h
    simpa using this
  obtain ⟨rest, hrest⟩ := hhash.trans hpre
  exact fieldsAux_takeWhile_of_hash line.data rest hrest.symm

/-- The operation of a line, in terms of its fields before the comment. -/
theorem lineOperation_eq (line : String) :
    lineOperation line =
      match Fields (stripComment line) with
      | [] => none
      | f0 :: args =>
          match arity (ToLower f0) with
          | none => none
          | some n =>
              if args.length = n ∧ (args.all fun a => (ParseFloat a).isSome) = true then
                operationOf (ToLower f0) args
              else none := by
  unfold lineOperation wellFormedLine
  cases Fields (stripComment line) with
  | nil => simp
  | cons f0 args =>
      cases ha : arity (ToLower f0) with
      | none => simp [ha]
      | some n => simp [ha]

/-- The body of the scanning loop yields the operation of the line. -/
theorem parseCommandLine_eq (line : String) : parseCommandLine line = lineOperation line := by
  rw [lineOperation_eq]
  unfold parseCommandLine
  simp only []
  by_cases hskip : (decide (TrimSpace (stripComment line) = "") ||
      HasPrefix (TrimSpace line) "#") = true
  · rw [if_pos hskip]
    have hnil : Fields (stripComment line) = [] := by
      rcases Bool.or_eq_true _ _ |>.mp hskip with h | h
      · exact Fields_of_TrimSpace_empty _ (of_decide_eq_true h)
      · exact Fields_stripComment_of_hash _ h
    rw [hnil]
  · rw [if_neg hskip, parseLine_eq, Fields_TrimSpace]

/-- The scanning loop appends, in line order, the operations of the lines. -/
theorem parseLoop_eq (lines : List String) (res : List Operation) :
    parseLoop lines res = res ++ lines.filterMap lineOperation := by
  induction lines generalizing res with
  | nil => simp [parseLoop]
  | cons l ls ih =>
      unfold parseLoop
      rw [parseCommandLine_eq]
      cases h : lineOperation l with
      | none => simp [ih, h]
      | some op => simp [ih, h]

/-- A line has an operation exactly when it is well-formed. -/
theorem lineOperation_isSome (line : String) :
    (lineOperation line).isSome = wellFormedLine line := by
  by_cases hw : wellFormedLine line = true
  · rw [hw]
    unfold lineOperation
    rw [if_pos hw]
    unfold wellFormedLine at hw
    cases hf : Fields (stripComment line) with
    | nil => simp [hf] at hw
    | cons f0 args =>
        simp only [hf] at hw
        simp only []
        cases ha : arity (ToLower f0) with
        | none => simp [ha] at hw
        | some n =>
            simp only [ha, Bool.and_eq_true, decide_eq_true_eq] at hw
            obtain ⟨hlen, _⟩ := hw
            unfold arity at ha
            unfold operationOf
            by_cases h1 : ToLower f0 = "white"
            · simp [h1]
            by_cases h2 : ToLower f0 = "green"
            · simp [h2]
            by_cases h3 : ToLower f0 = "update"
            · simp [h3]
            by_cases h4 : ToLower f0 = "reset"
            · simp [h4]
            by_cases h5 : ToLower f0 = "bgrect"
            · simp [h5] at ha
              subst ha
              match args, hlen with
              | [_, _, _, _], _ => simp [h5]
            by_cases h6 : ToLower f0 = "figure"
            · simp [h6] at ha
              subst ha
              match args, hlen with
              | [_, _], _ => simp [h6]
            by_cases h7 : ToLower f0 = "move"
            · simp [h7] at ha
              subst ha
              match args, hlen with
              | [_, _], _ => simp [h7]
            simp [h1, h2, h3, h4, h5, h6, h7] at ha
  · have hw2 : wellFormedLine line = false := by simpa using hw
    rw [hw2]
    unfold lineOperation
    simp [hw2]

/-- When the input is read without error, `Parse` returns the operations of
its lines, in line order. -/
theorem Parse_of_no_error (r : Reader) (h : (Parse r).2 = none) :
    (Parse r).1 = (inputLines r).filterMap lineOperation := by
  unfold Parse at h ⊢
  simp only [] at h ⊢
  by_cases hlong : (scanLines r.errWithData r.data.data []).2 = true
  · simp [hlong] at h
  · cases herr : r.err with
    | some msg => simp [hlong, herr] at h
    | none =>
        simp only [hlong, herr, if_false, Bool.false_eq_true]
        rw [parseLoop_eq]
        rfl

/-- The number of operations of a list of lines is the number of its
well-formed lines. -/
theorem length_filterMap_lineOperation (lines : List String) :
    (lines.filterMap lineOperation).length = lines.countP wellFormedLine := by
  induction lines with
  | nil => rfl
  | cons l ls ih =>
      have hl := lineOperation_isSome l
      cases hop : lineOperation l with
      | none =>
          rw [hop] at hl
          have hw : wellFormedLine l = false := by simpa using hl.symm
          simp [List.filterMap_cons, hop, List.countP_cons, hw, ih]
      | some op =>
          rw [hop] at hl
          have hw : wellFormedLine l = true := by simpa using hl.symm
          simp [List.filterMap_cons, hop, List.countP_cons, hw, ih]

/-- C1: the parser does not clamp NaN.  `ParseFloat` accepts `NaN`, the two
comparisons of `ParseCoords` are false on it, and the line `figure NaN 0.5`,
read without error, yields a `FigureOperation` whose `X` is NaN, a value
that is neither at least 0 nor at most 1. -/
theorem parse_nan_not_clamped :
    ParseFloat "NaN" = some F64.nan ∧
    Parse (Reader.ofString "figure NaN 0.5") =
      ([Operation.FigureOperation F64.nan F64.half], none) ∧
    F64.le F64.zero F64.nan = false ∧ F64.le F64.nan F64.one = false := by
  decide

/-- C2: when the input is read without error, `Parse` returns as many
operations as there are well-formed lines, and a line that is not
well-formed (blank, comment only, unknown command, wrong number of
arguments, an argument that does not parse) can be removed from the input
without changing the result: it adds no operation and the lines after it are
parsed all the same. -/
theorem parse_counts_wellformed (r : Reader) (h : (Parse r).2 = none) :
    (Parse r).1.length = (inputLines r).countP wellFormedLine ∧
    ∀ (before after : List String) (line : String),
      inputLines r = before ++ line :: after → wellFormedLine line = false →
      parseCommandLine line = none ∧ (Parse r).1 = parseLoop (before ++ after) [] := by
  have hp := Parse_of_no_error r h
  refine ⟨by rw [hp, length_filterMap_lineOperation], ?_⟩
  intro before after line hlines hw
  have hnone : lineOperation line = none := by
    have := lineOperation_isSome line
    rw [hw] at this
    simpa using this
  refine ⟨by rw [parseCommandLine_eq, hnone], ?_⟩
  rw [hp, hlines, parseLoop_eq]
  simp [List.filterMap_append, List.filterMap_cons, hnone]

/-- C2, witness: `white`, `figure 0.1`, `update` has two well-formed lines
and yields two operations; the malformed second line can be removed. -/
theorem parse_counts_wellformed_witness :
    (Parse (Reader.ofString "white\nfigure 0.1\nupdate")).2 = none ∧
    (inputLines (Reader.ofString "white\nfigure 0.1\nupdate")).countP wellFormedLine = 2 ∧
    ((Parse (Reader.ofString "white\nfigure 0.1\nupdate")).1.length =
      (inputLines (Reader.ofString "white\nfigure 0.1\nupdate")).countP wellFormedLine ∧
    ∀ (before after : List String) (line : String),
      inputLines (Reader.ofString "white\nfigure 0.1\nupdate") = before ++ line :: after →
      wellFormedLine line = false →
      parseCommandLine line = none ∧
        (Parse (Reader.ofString "white\nfigure 0.1\nupdate")).1 = parseLoop (before ++ after) []) :=
  ⟨by decide, by decide,
    parse_counts_wellformed (Reader.ofString "white\nfigure 0.1\nupdate") (by decide)⟩

/-- C3: when the input is read without error, `Parse` returns, in line order,
the operations of the well-formed lines: `white`, `green`, `update`,
`reset` give their operation, `bgrect a b c d`, `figure a b`, `move a b` give
theirs with the arguments, parsed and clamped, in argument order. -/
theorem parse_is_line_operations (r : Reader) (h : (Parse r).2 = none) :
    (Parse r).1 = ((inputLines r).filter wellFormedLine).filterMap lineOperation ∧
    ∀ line ∈ (inputLines r).filter wellFormedLine,
      ∃ f0 args, Fields (stripComment line) = f0 :: args ∧
        lineOperation line = operationOf (ToLower f0) args ∧
        (lineOperation line).isSome = true := by
  have hp := Parse_of_no_error r h
  constructor
  · rw [hp]
    induction inputLines r with
    | nil => rfl
    | cons l ls ih =>
        have hl := lineOperation_isSome l
        by_cases hw : wellFormedLine l = true
        · rw [List.filter_cons_of_pos hw, List.filterMap_cons, List.filterMap_cons, ih]
        · have hw2 : wellFormedLine l = false := by simpa using hw
          rw [hw2] at hl
          have hnone : lineOperation l = none := by simpa using hl
          rw [List.filter_cons_of_neg hw, List.filterMap_cons, hnone, ih]
  · intro line hline
    have hw : wellFormedLine line = true := (List.mem_filter.mp hline).2
    have hsome := lineOperation_isSome line
    rw [hw] at hsome
    cases hf : Fields (stripComment line) with
    | nil => simp [wellFormedLine, hf] at hw
    | cons f0 args =>
        refine ⟨f0, args, rfl, ?_, hsome⟩
        unfold lineOperation
        rw [if_pos hw, hf]

/-- C3, witness: a batch with a clamped `bgrect`, a commented `figure`, an
upper-case `MOVE` and a malformed line. -/
theorem parse_is_line_operations_witness :
    (Parse (Reader.ofString "bgrect -0.1 0.5 0.5 1.1\nfigure 0.0 1.0 # c\nred\nMOVE 0.5 0.5\nreset")).2 = none ∧
    (Parse (Reader.ofString "bgrect -0.1 0.5 0.5 1.1\nfigure 0.0 1.0 # c\nred\nMOVE 0.5 0.5\nreset")).1 =
      [Operation.BgRectOperation F64.zero F64.half F64.half F64.one,
        Operation.FigureOperation F64.zero F64.one,
        Operation.MoveOperation F64.half F64.half, Operation.ResetOperation] ∧
    ((Parse (Reader.ofString "bgrect -0.1 0.5 0.5 1.1\nfigure 0.0 1.0 # c\nred\nMOVE 0.5 0.5\nreset")).1 =
      ((inputLines (Reader.ofString "bgrect -0.1 0.5 0.5 1.1\nfigure 0.0 1.0 # c\nred\nMOVE 0.5 0.5\nreset")).filter
        wellFormedLine).filterMap lineOperation ∧
    ∀ line ∈ (inputLines (Reader.ofString "bgrect -0.1 0.5 0.5 1.1\nfigure 0.0 1.0 # c\nred\nMOVE 0.5 0.5\nreset")).filter
        wellFormedLine,
      ∃ f0 args, Fields (stripComment line) = f0 :: args ∧
        lineOperation line = operationOf (ToLower f0) args ∧
        (lineOperation line).isSome = true) :=
  ⟨by decide, by decide,
    parse_is_line_operations
      (Reader.ofString "bgrect -0.1 0.5 0.5 1.1\nfigure 0.0 1.0 # c\nred\nMOVE 0.5 0.5\nreset")
      (by decide)⟩

/-- On values other than NaN, `a < b` false means `b <= a`. -/
theorem F64.le_of_lt_eq_false (a b : F64) (ha : a ≠ F64.nan) (hb : b ≠ F64.nan)
    (h : F64.lt a b = false) : F64.le b a = true := by
  cases a with
  | nan => exact absurd rfl ha
  | inf n1 =>
      cases b with
      | nan => exact absurd rfl hb
      | inf n2 => cases n1 <;> cases n2 <;> simp_all [F64.lt, F64.le]
      | fin n2 m2 e2 => cases n1 <;> simp_all [F64.lt, F64.le]
  | fin n1 m1 e1 =>
      cases b with
      | nan => exact absurd rfl hb
      | inf n2 => cases n2 <;> simp_all [F64.lt, F64.le]
      | fin n2 m2 e2 =>
          simp only [F64.lt, decide_eq_false_iff_not, not_lt] at h
          simp only [F64.le, decide_eq_true_eq]
          rw [min_comm e2 e1]
          exact h

/-- Every value other than NaN is clamped into `[0,1]`: NaN is the one value
that `ParseCoords` lets through unclamped. -/
theorem clamp_in_unit (v : F64) (hv : v ≠ F64.nan) :
    F64.le F64.zero (clamp v) = true ∧ F64.le (clamp v) F64.one = true := by
  rw [clamp_eq_clampUnit]
  unfold clampUnit
  cases h0 : F64.lt v F64.zero with
  | true =>
      simp only [if_true]
      exact ⟨by decide, by decide⟩
  | false =>
      cases h1 : F64.gt v F64.one with
      | true =>
          simp only [Bool.false_eq_true, if_false, if_true]
          exact ⟨by decide, by decide⟩
      | false =>
          simp only [Bool.false_eq_true, if_false]
          exact ⟨F64.le_of_lt_eq_false v F64.zero hv (by decide) h0,
            F64.le_of_lt_eq_false F64.one v (by decide) hv h1⟩

/-- C4, witness: two figures on the 800x800 surface, moved to `(0.5, 0.5)`,
are two figures at `(400, 400)`. -/
theorem move_all_figures_to_target_witness :
    toPixel F64.half tex800.bounds.Dx = 400 ∧ toPixel F64.half tex800.bounds.Dy = 400 ∧
    (((Operation.MoveOperation F64.half F64.half).Do
        { initialLoop.State with Figures := [⟨1, 2⟩, ⟨3, 4⟩] }).1.Figures.length = 2 ∧
    ∀ f ∈ ((Operation.MoveOperation F64.half F64.half).Do
        { initialLoop.State with Figures := [⟨1, 2⟩, ⟨3, 4⟩] }).1.Figures,
      f = ⟨toPixel F64.half tex800.bounds.Dx, toPixel F64.half tex800.bounds.Dy⟩) :=
  ⟨by decide, by decide,
    move_all_figures_to_target F64.half F64.half
      { initialLoop.State with Figures := [⟨1, 2⟩, ⟨3, 4⟩] } tex800 rfl⟩

/-- C6, witness: `figure 0.5 0.5` on the initial state appends `(400, 400)`. -/
theorem figure_appends_one_witness :
    initialLoop.State.Texture = some tex800 ∧
    ((Operation.FigureOperation F64.half F64.half).Do initialLoop.State).1.Figures =
      [⟨400, 400⟩, ⟨400, 400⟩] ∧
    ((Operation.FigureOperation F64.half F64.half).Do initialLoop.State).1 =
      { initialLoop.State with
        Figures := initialLoop.State.Figures ++
          [⟨toPixel F64.half tex800.bounds.Dx, toPixel F64.half tex800.bounds.Dy⟩] } :=
  ⟨rfl, by decide, (figure_appends_one F64.half F64.half initialLoop.State).1 tex800 rfl⟩

/-- C8, witness: a post onto the empty queue of the initial loop is queued; a
post onto a queue of 100 operations is dropped. -/
theorem post_bounded_queue_witness :
    ((Post initialLoop Operation.WhiteOperation).MsgQueue = [Operation.WhiteOperation] ∧
      (Post initialLoop Operation.WhiteOperation).State = initialLoop.State ∧
      (Post initialLoop Operation.WhiteOperation).Receiver = initialLoop.Receiver) ∧
    Post { initialLoop with MsgQueue := List.replicate 100 Operation.GreenOperation }
        Operation.WhiteOperation =
      { initialLoop with MsgQueue := List.replicate 100 Operation.GreenOperation } :=
  ⟨(post_bounded_queue initialLoop Operation.WhiteOperation).1 (by decide),
    (post_bounded_queue { initialLoop with MsgQueue := List.replicate 100 Operation.GreenOperation }
      Operation.WhiteOperation).2.1 (by simp)⟩

/-- C10, witness: with a receiver attached to the initial loop, the batch
`white`, `figure 0.5 0.5`, `update` delivers one `Update`, with the surface. -/
theorem notify_policy_witness :
    List.replicate
        (([Operation.WhiteOperation, Operation.FigureOperation F64.half F64.half,
          Operation.UpdateOperation] : List Operation).count Operation.UpdateOperation)
        ((⟨1⟩ : Receiver), tex800) = [(⟨1⟩, tex800)] ∧
    ∃ l1 ev,
      drain { initialLoop with
          Receiver := some ⟨1⟩,
          MsgQueue := [Operation.WhiteOperation, Operation.FigureOperation F64.half F64.half,
            Operation.UpdateOperation] } = Except.ok (l1, ev) ∧
      updatesOf ev =
        List.replicate
          (([Operation.WhiteOperation, Operation.FigureOperation F64.half F64.half,
            Operation.UpdateOperation] : List Operation).count Operation.UpdateOperation)
          ((⟨1⟩ : Receiver), tex800) :=
  ⟨by decide,
    notify_policy.2
      { initialLoop with
        Receiver := some ⟨1⟩,
        MsgQueue := [Operation.WhiteOperation, Operation.FigureOperation F64.half F64.half,
          Operation.UpdateOperation] } ⟨1⟩ tex800 rfl rfl⟩

/-! ## Theorems: painting -/

/-- The `Fill` calls of a concatenation are those of its two parts. -/
theorem fillsOf_append (a b : List Event) : fillsOf (a ++ b) = fillsOf a ++ fillsOf b := by
  simp [fillsOf, List.filter_append]

/-- The calls of `drawFigure` are two `Fill` calls. -/
theorem fillsOf_drawFigure (tex : Texture) (x y : Int) :
    fillsOf (drawFigure tex x y) = drawFigure tex x y ∧ (drawFigure tex x y).length = 2 :=
  ⟨rfl, rfl⟩

/-- The calls that paint a list of figures are `Fill` calls, two a figure. -/
theorem fillsOf_figures (tex : Texture) (fs : List Figure) :
    fillsOf (fs.map (fun f => drawFigure tex f.X f.Y)).flatten =
      (fs.map (fun f => drawFigure tex f.X f.Y)).flatten ∧
    (fs.map (fun f => drawFigure tex f.X f.Y)).flatten.length = 2 * fs.length := by
  induction fs with
  | nil => exact ⟨rfl, rfl⟩
  | cons f fs ih =>
      simp only [List.map_cons, List.flatten_cons, fillsOf_append, List.length_append,
        List.length_cons, ih.1, ih.2, (fillsOf_drawFigure tex f.X f.Y).1,
        (fillsOf_drawFigure tex f.X f.Y).2]
      exact ⟨trivial, by omega⟩

/-- On a state with a surface, `drawCurrentState` is the full repaint. -/
theorem drawCurrentState_eq_fullRepaint (state : LoopState) (tex : Texture)
    (h : state.Texture = some tex) : drawCurrentState state = fullRepaint tex state := by
  unfold drawCurrentState fullRepaint
  rw [h]
  cases state.BgRect <;> rfl

/-- The full repaint consists of `Fill` calls only: one, one more when a
background rectangle is set, and two for each figure. -/
theorem fullRepaint_fills (tex : Texture) (state : LoopState) :
    fillsOf (fullRepaint tex state) = fullRepaint tex state ∧
    (fullRepaint tex state).length =
      1 + (if state.BgRect.isSome then 1 else 0) + 2 * state.Figures.length := by
  have hf := fillsOf_figures tex state.Figures
  unfold fullRepaint
  cases state.BgRect with
  | none =>
      constructor
      · show Event.Fill _ _ _ :: fillsOf ([] ++ _) = _
        rw [List.nil_append, hf.1]
      · simp only [List.length_cons, List.nil_append, hf.2, Option.isSome_none]
        simp
        omega
  | some r =>
      constructor
      · show Event.Fill _ _ _ :: fillsOf ([Event.Fill _ _ _] ++ _) = _
        rw [fillsOf_append, hf.1]
        rfl
      · simp only [List.length_cons, List.length_append, List.length_nil, hf.2,
          Option.isSome_some]
        simp
        omega

/-- The `Fill` calls of the second half of an iteration on a state with a
surface. -/
theorem fillsOf_applyOp (l : Loop) (op : Operation) (tex : Texture)
    (h : l.State.Texture = some tex) :
    fillsOf (applyOp l op).2 =
      if op = Operation.UpdateOperation then [] else fullRepaint tex (op.Do l.State).1 := by
  have ht : (op.Do l.State).1.Texture = some tex := by rw [Do_Texture, h]
  have hd : fillsOf (if op = Operation.UpdateOperation then []
      else drawCurrentState (op.Do l.State).1) =
      if op = Operation.UpdateOperation then [] else fullRepaint tex (op.Do l.State).1 := by
    split
    · rfl
    · rw [drawCurrentState_eq_fullRepaint _ tex ht, (fullRepaint_fills tex _).1]
  unfold applyOp
  simp only [fillsOf_append, hd, ht]
  cases l.Receiver with
  | none => simp [fillsOf]
  | some rcv =>
      simp only []
      split <;> simp [fillsOf]

/-- C11 (amended): an iteration of the loop on a state with a surface applies
`Do` and issues no `Fill` call when the operation is `UpdateOperation`; for
every other operation its `Fill` calls are the full repaint of the state
after the operation, in this order: the whole bounds in the background
colour, the background rectangle in black if one is set, the two bars of each
figure in list order, that is `1 + [rect set] + 2 * len(Figures)` calls. -/
theorem iteration_fills (l : Loop) (op : Operation) (tex : Texture)
    (h : l.State.Texture = some tex) :
    ∃ l1 ev, processOp l op = Except.ok (l1, ev) ∧ l1.State = (op.Do l.State).1 ∧
      fillsOf ev =
        (if op = Operation.UpdateOperation then [] else fullRepaint tex l1.State) ∧
      (fullRepaint tex l1.State).length =
        1 + (if l1.State.BgRect.isSome then 1 else 0) + 2 * l1.State.Figures.length := by
  have hs : ¬ (l.State.Texture.isNone ∧ l.State.Screen.isSome) := by simp [h]
  refine ⟨(applyOp l op).1, (applyOp l op).2, processOp_eq_applyOp l op hs, rfl, ?_,
    (fullRepaint_fills tex _).2⟩
  rw [fillsOf_applyOp l op tex h]
  rfl

/-- C11, witness: on the initial loop `white` issues the three `Fill` calls
of the repaint (background, two bars) and `update` issues none. -/
theorem iteration_fills_witness :
    (fullRepaint tex800 (Operation.WhiteOperation.Do initialLoop.State).1).length = 3 ∧
    (eventsOf (processOp initialLoop Operation.UpdateOperation)).map fillsOf = some [] ∧
    ∃ l1 ev, processOp initialLoop Operation.WhiteOperation = Except.ok (l1, ev) ∧
      l1.State = (Operation.WhiteOperation.Do initialLoop.State).1 ∧
      fillsOf ev =
        (if Operation.WhiteOperation = Operation.UpdateOperation then []
          else fullRepaint tex800 l1.State) ∧
      (fullRepaint tex800 l1.State).length =
        1 + (if l1.State.BgRect.isSome then 1 else 0) + 2 * l1.State.Figures.length :=
  ⟨by decide, by decide, iteration_fills initialLoop Operation.WhiteOperation tex800 rfl⟩

/-- C11 as stated fails on a loop without a surface.  When the screen returns
no texture, the iteration that takes `white` issues no `Fill` call, although
the state has one figure and the repaint would have three; when the screen
makes the surface anew, the iteration that takes `update` issues the three
`Fill` calls of the repaint done by `resetTexture`. -/
theorem iteration_fills_counterexample :
    (eventsOf (processOp surfacelessLoop Operation.WhiteOperation)).map fillsOf = some [] ∧
    surfacelessLoop.State.Figures.length = 1 ∧
    (eventsOf (processOp recreatingLoop Operation.UpdateOperation)).map
      (fun ev => (fillsOf ev).length) = some 3 := by
  decide

/-! ## Theorems: comments, keywords, rectangles -/

/-- The text before the first `#` of `t#s`, for `t` without `#`, is `t`. -/
theorem takeWhile_append_hash (t s : List Char) (h : '#' ∉ t) :
    (t ++ '#' :: s).takeWhile (fun c => c != '#') = t := by
  induction t with
  | nil => simp
  | cons c cs ih =>
      have hc : (c != '#') = true := by
        have : c ≠ '#' := fun he => h (by simp [he])
        simpa using this
      have hcs : '#' ∉ cs := fun hm => h (List.mem_cons_of_mem _ hm)
      simp only [List.cons_append, List.takeWhile_cons, hc, if_true, ih hcs]

/-- A text without `#` is its own text before the first `#`. -/
theorem takeWhile_no_hash (t : List Char) (h : '#' ∉ t) :
    t.takeWhile (fun c => c != '#') = t := by
  induction t with
  | nil => rfl
  | cons c cs ih =>
      have hc : (c != '#') = true := by
        have : c ≠ '#' := fun he => h (by simp [he])
        simpa using this
      have hcs : '#' ∉ cs := fun hm => h (List.mem_cons_of_mem _ hm)
      simp only [List.takeWhile_cons, hc, if_true]
      rw [ih hcs]

/-- Appending a comment to a text without `#` does not change what is left
after the comment is stripped. -/
theorem stripComment_append_hash (t s : String) (h : '#' ∉ t.data) :
    stripComment (t ++ "#" ++ s) = stripComment t := by
  unfold stripComment
  have hd : (t ++ "#" ++ s).data = t.data ++ '#' :: s.data := by
    simp [String.data_append]
  rw [hd, takeWhile_append_hash _ _ h, takeWhile_no_hash _ h]

/-- The operation of a line depends on the line through its text before the
comment only. -/
theorem lineOperation_congr (l1 l2 : String) (h : stripComment l1 = stripComment l2) :
    lineOperation l1 = lineOperation l2 := by
  unfold lineOperation wellFormedLine
  rw [h]

/-- C12: for a line text `t` without `#` and any text `s`, the line `t#s`
parses to what `t` parses to, the same operation or none; and a line whose
first character that is not white space is `#` yields no operation. -/
theorem comment_is_stripped :
    (∀ t s : String, '#' ∉ t.data →
      parseCommandLine (t ++ "#" ++ s) = parseCommandLine t) ∧
    (∀ (line : String) (rest : List Char),
      line.data.dropWhile isSpace = '#' :: rest → parseCommandLine line = none) := by
  constructor
  · intro t s h
    rw [parseCommandLine_eq, parseCommandLine_eq]
    exact lineOperation_congr _ _ (stripComment_append_hash t s h)
  · intro line rest h
    rw [parseCommandLine_eq, lineOperation_eq]
    have hf : Fields (stripComment line) = [] := fieldsAux_takeWhile_of_hash line.data rest h
    rw [hf]

/-- C12, witness: the commented `figure` line of the tests parses like the
line without its comment, and a comment line yields nothing. -/
theorem comment_is_stripped_witness :
    parseCommandLine "figure 0.0 1.0 " = some (Operation.FigureOperation F64.zero F64.one) ∧
    parseCommandLine ("figure 0.0 1.0 " ++ "#" ++ " Coordinates within range") =
      parseCommandLine "figure 0.0 1.0 " ∧
    parseCommandLine "  # This is a comment" = none :=
  ⟨by decide,
    comment_is_stripped.1 "figure 0.0 1.0 " " Coordinates within range" (by decide),
    comment_is_stripped.2 "  # This is a comment" " This is a comment".data (by decide)⟩

/-- C14: a line whose fields before the comment are `bgrect` (in any letter
case) and four arguments that `ParseFloat` accepts yields the one
`BgRectOperation` carrying the four values clamped, in argument order,
whatever their order of magnitude: a rectangle with `x1 >= x2` or `y1 >= y2`
is neither rejected nor altered. -/
theorem bgrect_always_accepted (line f0 a b c d : String) (va vb vc vd : F64)
    (hf : Fields (stripComment line) = [f0, a, b, c, d]) (hc : ToLower f0 = "bgrect")
    (ha : ParseFloat a = some va) (hb : ParseFloat b = some vb)
    (hc1 : ParseFloat c = some vc) (hd : ParseFloat d = some vd) :
    parseCommandLine line =
      some (Operation.BgRectOperation (clampUnit va) (clampUnit vb) (clampUnit vc)
        (clampUnit vd)) := by
  rw [parseCommandLine_eq, lineOperation_eq, hf]
  simp [hc, arity, operationOf, argValue, ha, hb, hc1, hd]

/-- C14, witness: `bgrect 0.5 0.5 0 0` has `x1 >= x2` and `y1 >= y2` and is
accepted unchanged; `bgrect -0.1 0.2 0.8 1.1` yields `(0, 0.2, 0.8, 1)`. -/
theorem bgrect_always_accepted_witness :
    parseCommandLine "bgrect -0.1 0.2 0.8 1.1" =
      some (Operation.BgRectOperation F64.zero (F64.round false 2 10) (F64.round false 8 10)
        F64.one) ∧
    clampUnit F64.half = F64.half ∧ clampUnit F64.zero = F64.zero ∧
    parseCommandLine "bgrect 0.5 0.5 0 0" =
      some (Operation.BgRectOperation (clampUnit F64.half) (clampUnit F64.half)
        (clampUnit F64.zero) (clampUnit F64.zero)) :=
  ⟨by decide, by decide, by decide,
    bgrect_always_accepted "bgrect 0.5 0.5 0 0" "bgrect" "0.5" "0.5" "0" "0"
      F64.half F64.half F64.zero F64.zero (by decide) (by decide) (by decide) (by decide)
      (by decide) (by decide)⟩

/-- The four ways `toLowerRune` acts on a code point. -/
theorem toLowerRune_cases (c : Char) :
    toLowerRune c = c ∨
    (65 ≤ c.toNat ∧ c.toNat ≤ 90 ∧ (toLowerRune c).toNat = c.toNat + 32) ∨
    (c.toNat = 0x130 ∧ toLowerRune c = 'i') ∨
    (c.toNat = 0x212A ∧ toLowerRune c = 'k') := by
  unfold toLowerRune
  by_cases h1 : 'A' ≤ c ∧ c ≤ 'Z'
  · right; left
    rw [if_pos h1]
    have ha : 65 ≤ c.toNat := h1.1
    have hz : c.toNat ≤ 90 := h1.2
    refine ⟨ha, hz, ?_⟩
    have hc : c = Char.ofNat c.toNat := (Char.ofNat_toNat c).symm
    generalize c.toNat = n at ha hz hc
    interval_cases n <;> rfl
  · rw [if_neg h1]
    by_cases h2 : c.toNat = 0x130
    · right; right; left
      exact ⟨h2, by rw [if_pos h2]⟩
    · rw [if_neg h2]
      by_cases h3 : c.toNat = 0x212A
      · right; right; right
        exact ⟨h3, by rw [if_pos h3]⟩
      · left
        rw [if_neg h3]
/-- A code point between `!` and U+0084 is not white space. -/
theorem isSpace_false_of_range (c : Char) (h1 : 33 ≤ c.toNat) (h2 : c.toNat ≤ 132) :
    isSpace c = false := by
  unfold isSpace
  simp only [Bool.or_eq_false_iff, Bool.and_eq_false_iff, decide_eq_false_iff_not]
  omega

/-- Lower-casing keeps white space white space and the rest the rest. -/
theorem isSpace_toLowerRune (c : Char) : isSpace (toLowerRune c) = isSpace c := by
  rcases toLowerRune_cases c with h | ⟨h1, h2, h3⟩ | ⟨h1, h2⟩ | ⟨h1, h2⟩
  · rw [h]
  · rw [isSpace_false_of_range c (by omega) (by omega),
      isSpace_false_of_range (toLowerRune c) (by omega) (by omega)]
  · rw [h2]
    have : isSpace c = false := by
      unfold isSpace
      simp [h1]
    rw [this]
    rfl
  · rw [h2]
    have : isSpace c = false := by
      unfold isSpace
      simp [h1]
    rw [this]
    rfl

/-- Lower-casing a lower-cased code point changes nothing. -/
theorem toLowerRune_idem (c : Char) : toLowerRune (toLowerRune c) = toLowerRune c := by
  rcases toLowerRune_cases c with h | ⟨h1, h2, h3⟩ | ⟨h1, h2⟩ | ⟨h1, h2⟩
  · rw [h, h]
  · rcases toLowerRune_cases (toLowerRune c) with g | ⟨g1, g2, _⟩ | ⟨g1, _⟩ | ⟨g1, _⟩
    · exact g
    · omega
    · omega
    · omega
  · rw [h2]
    rfl
  · rw [h2]
    rfl

/-- Lower-casing a lower-cased string changes nothing. -/
theorem ToLower_idem (s : String) : ToLower (ToLower s) = ToLower s := by
  unfold ToLower
  simp only [List.map_map]
  congr 1
  apply List.map_congr_left
  intro c _
  exact toLowerRune_idem c

/-- Lower-casing yields `#` only from `#`. -/
theorem toLowerRune_ne_hash (c : Char) (h : (c != '#') = true) :
    (toLowerRune c != '#') = true := by
  have hc : c ≠ '#' := by simpa using h
  have hgoal : toLowerRune c ≠ '#' := by
    rcases toLowerRune_cases c with h0 | ⟨h1, h2, h3⟩ | ⟨h1, h2⟩ | ⟨h1, h2⟩
    · rw [h0]
      exact hc
    · intro he
      rw [he] at h3
      have : ('#' : Char).toNat = 35 := rfl
      omega
    · rw [h2]
      decide
    · rw [h2]
      decide
  simpa using hgoal

/-- Lower-casing a string built from a reversed list of code points. -/
theorem ToLower_mk_reverse (cur : List Char) :
    ToLower (String.mk cur.reverse) = String.mk (cur.map toLowerRune).reverse := by
  unfold ToLower
  simp [List.map_reverse]

/-- The fields of a text whose leading run of non-space characters has been
lower-cased are the fields of the text with the first one lower-cased, when
that run is the first field. -/
theorem fieldsAux_lowerRun (l cur : List Char)
    (h : cur ≠ [] ∨ ∀ c cs, l = c :: cs → isSpace c = false) :
    fieldsAux ((l.takeWhile (fun c => !isSpace c)).map toLowerRune ++
        l.dropWhile (fun c => !isSpace c)) (cur.map toLowerRune) =
      lowerHeadField (fieldsAux l cur) := by
  induction l generalizing cur with
  | nil =>
      cases cur with
      | nil => rfl
      | cons d ds =>
          simp only [List.takeWhile_nil, List.map_nil, List.dropWhile_nil, List.append_nil,
            fieldsAux, List.map_cons, List.isEmpty_cons, Bool.false_eq_true, if_false,
            lowerHeadField]
          rw [← List.map_cons, ← ToLower_mk_reverse]
  | cons c cs ih =>
      by_cases hsp : isSpace c = true
      · have hcur : cur ≠ [] := by
          rcases h with h | h
          · exact h
          · have := h c cs rfl
            rw [hsp] at this
            exact absurd this (by decide)
        obtain ⟨d, ds, rfl⟩ := List.exists_cons_of_ne_nil hcur
        have htw : (c :: cs).takeWhile (fun c => !isSpace c) = [] := by
          simp [List.takeWhile_cons, hsp]
        have hdw : (c :: cs).dropWhile (fun c => !isSpace c) = c :: cs := by
          simp [List.dropWhile_cons, hsp]
        rw [htw, hdw]
        simp only [List.map_nil, List.nil_append, fieldsAux, hsp, if_true, List.map_cons,
          List.isEmpty_cons, Bool.false_eq_true, if_false, lowerHeadField]
        rw [← List.map_cons, ← ToLower_mk_reverse]
      · have hsp2 : isSpace c = false := by simpa using hsp
        have htw : (c :: cs).takeWhile (fun c => !isSpace c) =
            c :: cs.takeWhile (fun c => !isSpace c) := by
          simp [List.takeWhile_cons, hsp2]
        have hdw : (c :: cs).dropWhile (fun c => !isSpace c) =
            cs.dropWhile (fun c => !isSpace c) := by
          simp [List.dropWhile_cons, hsp2]
        have hl : isSpace (toLowerRune c) = false := by rw [isSpace_toLowerRune, hsp2]
        rw [htw, hdw]
        simp only [List.map_cons, List.cons_append, fieldsAux, hl, hsp2, Bool.false_eq_true,
          if_false]
        rw [← List.map_cons]
        exact ih (c :: cur) (Or.inl (by simp))

/-- Leading white space does not change the fields of what follows it. -/
theorem fieldsAux_takeWhile_append (l m : List Char) :
    fieldsAux (l.takeWhile isSpace ++ m) [] = fieldsAux m [] := by
  induction l with
  | nil => rfl
  | cons c cs ih =>
      by_cases hsp : isSpace c = true
      · simp only [List.takeWhile_cons, hsp, if_true, List.cons_append, fieldsAux,
          List.isEmpty_nil]
        exact ih
      · simp [List.takeWhile_cons, hsp]

/-- What is left after the leading white space does not start with white
space. -/
theorem dropWhile_isSpace_head (l : List Char) (c : Char) (cs : List Char)
    (h : l.dropWhile isSpace = c :: cs) : isSpace c = false := by
  induction l with
  | nil => simp at h
  | cons d ds ih =>
      by_cases hsp : isSpace d = true
      · rw [List.dropWhile_cons_of_pos hsp] at h
        exact ih h
      · rw [List.dropWhile_cons_of_neg hsp] at h
        injection h with h1 _
        subst h1
        simpa using hsp

/-- The fields of a line with its first field lower-cased. -/
theorem Fields_lowerFirstField (line : String) :
    Fields (lowerFirstField line) = lowerHeadField (Fields line) := by
  unfold Fields lowerFirstField
  simp only [List.append_assoc]
  rw [fieldsAux_takeWhile_append]
  have h := fieldsAux_lowerRun (line.data.dropWhile isSpace) []
    (Or.inr (fun c cs hc => dropWhile_isSpace_head line.data c cs hc))
  simp only [List.map_nil] at h
  rw [h, fieldsAux_dropWhile]

/-- Stripping the comment commutes with lower-casing a leading run of
non-space characters. -/
theorem takeWhile_lowerRun (l : List Char) :
    ((l.takeWhile (fun c => !isSpace c)).map toLowerRune ++
        l.dropWhile (fun c => !isSpace c)).takeWhile (fun c => c != '#') =
      ((l.takeWhile (fun c => c != '#')).takeWhile (fun c => !isSpace c)).map toLowerRune ++
        (l.takeWhile (fun c => c != '#')).dropWhile (fun c => !isSpace c) := by
  induction l with
  | nil => rfl
  | cons c cs ih =>
      by_cases hsp : isSpace c = true
      · have hne : (c != '#') = true := by
          by_cases he : c = '#'
          · subst he
            exact absurd hsp (by decide)
          · simpa using he
        simp [List.takeWhile_cons, List.dropWhile_cons, hsp, hne]
      · have hsp2 : isSpace c = false := by simpa using hsp
        by_cases he : c = '#'
        · subst he
          simp [List.takeWhile_cons, List.dropWhile_cons, hsp2, toLowerRune]
        · have hne : (c != '#') = true := by simpa using he
          have hl := toLowerRune_ne_hash c hne
          simp only [List.takeWhile_cons, List.dropWhile_cons, hsp2, hne, if_true,
            Bool.not_false, List.map_cons, List.cons_append, hl]
          rw [ih]

/-- Stripping the comment commutes with lower-casing the first field. -/
theorem stripComment_lowerFirstField (line : String) :
    stripComment (lowerFirstField line) = lowerFirstField (stripComment line) := by
  unfold stripComment lowerFirstField
  simp only [List.append_assoc]
  congr 1
  induction line.data with
  | nil => rfl
  | cons c cs ih =>
      by_cases hsp : isSpace c = true
      · have hne : (c != '#') = true := by
          by_cases he : c = '#'
          · subst he
            exact absurd hsp (by decide)
          · simpa using he
        simp only [List.takeWhile_cons, List.dropWhile_cons, hsp, hne, if_true,
          List.cons_append]
        rw [ih]
      · have hsp2 : isSpace c = false := by simpa using hsp
        have h1 : (c :: cs).takeWhile isSpace = [] := by simp [List.takeWhile_cons, hsp2]
        have h2 : (c :: cs).dropWhile isSpace = c :: cs := by simp [List.dropWhile_cons, hsp2]
        rw [h1, h2, List.nil_append, takeWhile_lowerRun]
        by_cases he : c = '#'
        · subst he
          simp [List.takeWhile_cons]
        · have hne : (c != '#') = true := by simpa using he
          simp [List.takeWhile_cons, List.dropWhile_cons, hne, hsp2]

/-- The operation of a line does not change when its first field is
lower-cased. -/
theorem lineOperation_lowerFirstField (line : String) :
    lineOperation (lowerFirstField line) = lineOperation line := by
  rw [lineOperation_eq, lineOperation_eq, stripComment_lowerFirstField, Fields_lowerFirstField]
  cases Fields (stripComment line) with
  | nil => rfl
  | cons f0 args => simp only [lowerHeadField, ToLower_idem]

/-- The result of `parseLine` does not change when the first field is
lower-cased. -/
theorem parseLine_lowerFirstField (line : String) :
    parseLine (lowerFirstField line) = parseLine line := by
  rw [parseLine_eq, parseLine_eq, Fields_lowerFirstField]
  cases Fields line with
  | nil => rfl
  | cons f0 args => simp only [lowerHeadField, ToLower_idem]

/-- C13: keywords are matched without regard to letter case: a line, taken
with its comment by the loop of `Parse` or already stripped by `parseLine`,
parses to the same result as the line with its first white-space-separated
field lower-cased; and the result depends on the line through its list of
white-space-separated fields only, so the amount of white space between the
command and its arguments does not matter. -/
theorem keywords_case_insensitive :
    (∀ line : String, parseCommandLine (lowerFirstField line) = parseCommandLine line) ∧
    (∀ line : String, parseLine (lowerFirstField line) = parseLine line) ∧
    (∀ l1 l2 : String, Fields l1 = Fields l2 → parseLine l1 = parseLine l2) ∧
    (∀ l1 l2 : String, Fields (stripComment l1) = Fields (stripComment l2) →
      parseCommandLine l1 = parseCommandLine l2) := by
  refine ⟨?_, parseLine_lowerFirstField, ?_, ?_⟩
  · intro line
    rw [parseCommandLine_eq, parseCommandLine_eq, lineOperation_lowerFirstField]
  · intro l1 l2 h
    rw [parseLine_eq, parseLine_eq, h]
  · intro l1 l2 h
    rw [parseCommandLine_eq, parseCommandLine_eq, lineOperation_eq, lineOperation_eq, h]

/-- C13, witness: `WHITE` parses like `white`, `Figure 0.5 0.5` like
`figure 0.5 0.5`, and so does `figure` followed by its arguments after
several blanks and a tab. -/
theorem keywords_case_insensitive_witness :
    lowerFirstField "WHITE" = "white" ∧
    parseCommandLine (lowerFirstField "WHITE") = parseCommandLine "WHITE" ∧
    parseCommandLine "white" = some Operation.WhiteOperation ∧
    lowerFirstField " Figure 0.5 0.5" = " figure 0.5 0.5" ∧
    parseLine (lowerFirstField " Figure 0.5 0.5") = parseLine " Figure 0.5 0.5" ∧
    parseLine "figure   0.5\t0.5" = parseLine "figure 0.5 0.5" ∧
    parseLine "figure 0.5 0.5" = some (Operation.FigureOperation F64.half F64.half) :=
  ⟨by decide, keywords_case_insensitive.1 "WHITE", by decide, by decide,
    keywords_case_insensitive.2.1 " Figure 0.5 0.5",
    keywords_case_insensitive.2.2.1 "figure   0.5\t0.5" "figure 0.5 0.5" (by decide),
    by decide⟩

/-! ## Theorems: errors of the parser -/

/-- The number of bytes does not depend on the order of the code points. -/
theorem byteLen_reverse (cs : List Char) : byteLen cs.reverse = byteLen cs := by
  unfold byteLen
  rw [List.map_reverse, List.sum_reverse]

/-- The scanner stops with `ErrTooLong` exactly when a raw line is too
long. -/
theorem scanLines_tooLong (eofKnown : Bool) (cs cur : List Char) :
    (scanLines eofKnown cs cur).2 = (rawLines cs cur).any (lineTooLong eofKnown) := by
  induction cs generalizing cur with
  | nil =>
      unfold scanLines rawLines
      by_cases he : cur.isEmpty = true
      · simp [he]
      · simp only [he, Bool.false_eq_true, if_false, List.any_cons, List.any_nil,
          Bool.or_false, lineTooLong, byteLen_reverse]
        by_cases h1 : MaxScanTokenSize < byteLen cur
        · simp [h1]
        · by_cases h2 : byteLen cur = MaxScanTokenSize <;> cases eofKnown <;> simp [h1, h2]
  | cons c cs ih =>
      unfold scanLines rawLines
      by_cases hc : c = '\n'
      · simp only [hc, if_true, List.any_cons, lineTooLong, byteLen_reverse]
        by_cases h1 : MaxScanTokenSize ≤ byteLen cur
        · simp [h1]
        · simp [h1, ih]
      · simp only [hc, if_false]
        exact ih _

/-- The raw lines of a run of letters. -/
theorem rawLines_replicate (n : Nat) (cur : List Char) :
    rawLines (List.replicate (n + 1) 'a') cur =
      [(cur.reverse ++ List.replicate (n + 1) 'a', false)] := by
  induction n generalizing cur with
  | zero => simp [rawLines, List.replicate]
  | succ n ih =>
      rw [List.replicate_succ]
      unfold rawLines
      rw [if_neg (by decide), ih]
      simp [List.replicate_succ]

/-- The number of bytes of a run of letters. -/
theorem byteLen_replicate (n : Nat) : byteLen (List.replicate n 'a') = n := by
  induction n with
  | zero => rfl
  | succ n ih =>
      unfold byteLen at ih ⊢
      rw [List.replicate_succ, List.map_cons, List.sum_cons, ih]
      have : Char.utf8Size 'a' = 1 := by decide
      omega

/-- The error and the operations of `Parse` in terms of the reader. -/
theorem Parse_cases (r : Reader) :
    Parse r =
      if hasLongLine r = true then ([], some ParseError.tooLong)
      else
        match r.err with
        | some msg => ([], some (ParseError.read msg))
        | none => (parseLoop (inputLines r) [], none) := by
  have hflag := scanLines_tooLong r.errWithData r.data.data []
  unfold Parse hasLongLine inputLines
  by_cases hl : (rawLines r.data.data []).any (lineTooLong r.errWithData) = true
  · rw [if_pos hl]
    simp only [hflag, hl, if_true]
  · rw [if_neg hl]
    simp only [hflag, hl, Bool.false_eq_true, if_false]

/-- C15 (amended): `Parse` returns a non-nil error exactly when the scanner
stops with one, that is when the reader fails or a line is too long for the
scanner (65536 bytes or more); in that case it returns no operations at all,
whatever was parsed from the lines before; when the reader ends without an
error and no line is too long the error is nil and the operations are those
of the lines, whatever the lines contain. -/
theorem parse_error_iff (r : Reader) :
    ((Parse r).2 ≠ none ↔ (r.err ≠ none ∨ hasLongLine r = true)) ∧
    ((Parse r).2 ≠ none → (Parse r).1 = []) ∧
    (r.err = none → hasLongLine r = false →
      Parse r = (parseLoop (inputLines r) [], none)) := by
  rw [Parse_cases]
  by_cases hl : hasLongLine r = true
  · simp [hl]
  · cases he : r.err with
    | none => simp [hl]
    | some msg => simp [hl]

/-- C15, witness: a reader that fails after `white` yields the error and no
operation, although the line was parsed; a reader that ends normally yields
the operation and no error. -/
theorem parse_error_iff_witness :
    parseLoop (inputLines ⟨"white\n", some "reset by peer", false⟩) [] =
      [Operation.WhiteOperation] ∧
    Parse ⟨"white\n", some "reset by peer", false⟩ =
      ([], some (ParseError.read "reset by peer")) ∧
    Parse (Reader.ofString "white\n") = ([Operation.WhiteOperation], none) ∧
    (((Parse ⟨"white\n", some "reset by peer", false⟩).2 ≠ none ↔
        ((⟨"white\n", some "reset by peer", false⟩ : Reader).err ≠ none ∨
          hasLongLine ⟨"white\n", some "reset by peer", false⟩ = true)) ∧
      ((Parse ⟨"white\n", some "reset by peer", false⟩).2 ≠ none →
        (Parse ⟨"white\n", some "reset by peer", false⟩).1 = []) ∧
      ((⟨"white\n", some "reset by peer", false⟩ : Reader).err = none →
        hasLongLine ⟨"white\n", some "reset by peer", false⟩ = false →
        Parse ⟨"white\n", some "reset by peer", false⟩ =
          (parseLoop (inputLines ⟨"white\n", some "reset by peer", false⟩) [], none))) :=
  ⟨by decide, by decide, by decide, parse_error_iff ⟨"white\n", some "reset by peer", false⟩⟩

/-- C15 as stated fails on a long line: a reader that delivers one line of
65536 letters and ends with `io.EOF` does not fail, yet `Parse` returns the
error `ErrTooLong` of the scanner. -/
theorem parse_error_iff_counterexample :
    longLineReader.err = none ∧
    longLineReader.data.data = List.replicate 65536 'a' ∧
    Parse longLineReader = ([], some ParseError.tooLong) := by
  refine ⟨rfl, rfl, ?_⟩
  have hraw : rawLines longLineReader.data.data [] = [(List.replicate 65536 'a', false)] :=
    rawLines_replicate 65535 []
  have hlong : hasLongLine longLineReader = true := by
    unfold hasLongLine
    rw [hraw]
    simp only [List.any_cons, List.any_nil, Bool.or_false, lineTooLong, byteLen_replicate,
      MaxScanTokenSize]
    rfl
  rw [Parse_cases, if_pos hlong]

/-! ## Theorems: receiver, construction, stop -/

/-- C16 (amended): `SetReceiver(r)` with a non-nil `r` sets the receiver of
the loop to `r`; when the queue holds fewer than 100 operations it appends
exactly one `UpdateOperation` at the tail and changes nothing else, and when
the queue is full that operation is dropped; when moreover the surface is
present, emptying the queue hands `r` one frame for that operation (and one
for each `UpdateOperation` queued before it) without any further `Post`. -/
theorem setReceiver_posts_update (l : Loop) (r : Receiver) :
    (SetReceiver l (some r)).Receiver = some r ∧
    (SetReceiver l (some r)).State = l.State ∧
    (l.MsgQueue.length < 100 →
      (SetReceiver l (some r)).MsgQueue = l.MsgQueue ++ [Operation.UpdateOperation]) ∧
    (¬ l.MsgQueue.length < 100 → (SetReceiver l (some r)).MsgQueue = l.MsgQueue) ∧
    (∀ t, l.MsgQueue.length < 100 → l.State.Texture = some t →
      ∃ l1 ev, drain (SetReceiver l (some r)) = Except.ok (l1, ev) ∧
        updatesOf ev =
          List.replicate (l.MsgQueue.count Operation.UpdateOperation + 1) (r, t)) := by
  have hset : SetReceiver l (some r) =
      Post { l with Receiver := some r } Operation.UpdateOperation := by
    simp [SetReceiver]
  rw [hset]
  by_cases hlen : l.MsgQueue.length < 100
  · have hpost : Post { l with Receiver := some r } Operation.UpdateOperation =
        { l with Receiver := some r, MsgQueue := l.MsgQueue ++ [Operation.UpdateOperation] } := by
      simp [Post, queueCap, hlen]
    rw [hpost]
    refine ⟨rfl, rfl, fun _ => rfl, fun h => absurd hlen h, ?_⟩
    intro t _ ht
    have h := drainN_updates (l.MsgQueue ++ [Operation.UpdateOperation])
      { l with Receiver := some r, MsgQueue := l.MsgQueue ++ [Operation.UpdateOperation] }
      (l.MsgQueue ++ [Operation.UpdateOperation]).length r t rfl (Nat.le_refl _) rfl ht
    simpa [drain, List.count_append] using h
  · have hpost : Post { l with Receiver := some r } Operation.UpdateOperation =
        { l with Receiver := some r } := by
      simp [Post, queueCap, hlen]
    rw [hpost]
    exact ⟨rfl, rfl, fun h => absurd h hlen, fun _ => rfl, fun t h => absurd h hlen⟩

/-- C16, witness: a receiver attached to the initial loop gets one frame. -/
theorem setReceiver_posts_update_witness :
    (SetReceiver initialLoop (some ⟨7⟩)).MsgQueue = [Operation.UpdateOperation] ∧
    ∃ l1 ev, drain (SetReceiver initialLoop (some ⟨7⟩)) = Except.ok (l1, ev) ∧
      updatesOf ev =
        List.replicate (initialLoop.MsgQueue.count Operation.UpdateOperation + 1)
          ((⟨7⟩ : Receiver), tex800) :=
  ⟨(setReceiver_posts_update initialLoop ⟨7⟩).2.2.1 (by decide),
    (setReceiver_posts_update initialLoop ⟨7⟩).2.2.2.2 tex800 (by decide) rfl⟩

/-- C16 as stated fails on a full queue and on a loop without a surface.
With 100 operations queued, `SetReceiver` sets the receiver and enqueues
nothing, and emptying the queue hands it no frame; on the loop without a
surface the `UpdateOperation` is enqueued, dequeued and skipped, and no frame
is handed over either. -/
theorem setReceiver_posts_update_counterexample :
    fullLoop.MsgQueue.length = 100 ∧
    (SetReceiver fullLoop (some ⟨7⟩)).Receiver = some ⟨7⟩ ∧
    (SetReceiver fullLoop (some ⟨7⟩)).MsgQueue = fullLoop.MsgQueue ∧
    (SetReceiver fullLoop (some ⟨7⟩)).MsgQueue.count Operation.UpdateOperation = 0 ∧
    (eventsOf (drain (SetReceiver fullLoop (some ⟨7⟩)))).map updatesOf = some [] ∧
    (SetReceiver surfacelessLoop (some ⟨7⟩)).MsgQueue = [Operation.UpdateOperation] ∧
    (eventsOf (drain (SetReceiver surfacelessLoop (some ⟨7⟩)))).map updatesOf = some [] := by
  decide

/-- C17: when `NewTexture` returns a texture and a nil error, `NewLoop`
returns a loop with the green background `RGBA{0,255,0,255}`, no background
rectangle, window size 800x800, that texture as surface, an empty queue, no
receiver and the one figure `(400,400)`, and it has painted that state once:
after the `NewTexture` call, one `Fill` of the bounds in the background
colour followed by the two `Fill` calls of the figure. -/
theorem newLoop_initial (scr : Screen) (tex : Texture)
    (h : scr.NewTexture ⟨800, 800⟩ = (some tex, false)) :
    ∃ l ev, NewLoop (some scr) = Except.ok (l, ev) ∧
      l.State.Background = Color.RGBA 0 0xff 0 0xff ∧ l.State.BgRect = none ∧
      l.State.WindowSize = ⟨800, 800⟩ ∧ l.State.Texture = some tex ∧
      l.MsgQueue = [] ∧ l.Receiver = none ∧ l.State.Figures = [⟨400, 400⟩] ∧
      ev = Event.NewTexture ⟨800, 800⟩ ::
        Event.Fill tex tex.bounds (Color.RGBA 0 0xff 0 0xff) :: drawFigure tex 400 400 ∧
      fillsOf ev = fullRepaint tex l.State ∧ (fillsOf ev).length = 3 := by
  have hnew : NewLoop (some scr) = Except.ok
      ({ Receiver := none,
         State :=
          { Texture := some tex, Background := Color.RGBA 0 0xff 0 0xff, BgRect := none,
            Figures := [⟨400, 400⟩], Screen := some scr, WindowSize := ⟨800, 800⟩ },
         MsgQueue := [], stop := false, stopped := false },
        Event.NewTexture ⟨800, 800⟩ ::
          Event.Fill tex tex.bounds (Color.RGBA 0 0xff 0 0xff) :: drawFigure tex 400 400) := by
    have h400 : Int.tdiv 800 2 = 400 := by decide
    simp [NewLoop, resetTexture, h, drawCurrentState, h400]
  exact ⟨_, _, hnew, rfl, rfl, rfl, rfl, rfl, rfl, rfl, rfl, rfl, rfl⟩

/-- C17, witness: the screen of the tests. -/
theorem newLoop_initial_witness :
    loopOf (NewLoop (some okScreen)) = some initialLoop ∧
    ∃ l ev, NewLoop (some okScreen) = Except.ok (l, ev) ∧
      l.State.Background = Color.RGBA 0 0xff 0 0xff ∧ l.State.BgRect = none ∧
      l.State.WindowSize = ⟨800, 800⟩ ∧ l.State.Texture = some tex800 ∧
      l.MsgQueue = [] ∧ l.Receiver = none ∧ l.State.Figures = [⟨400, 400⟩] ∧
      ev = Event.NewTexture ⟨800, 800⟩ ::
        Event.Fill tex800 tex800.bounds (Color.RGBA 0 0xff 0 0xff) ::
          drawFigure tex800 400 400 ∧
      fillsOf ev = fullRepaint tex800 l.State ∧ (fillsOf ev).length = 3 :=
  ⟨rfl, newLoop_initial okScreen tex800 rfl⟩

/-- C19: `Do` changes only the fields of its operation: `White` and `Green`
only `Background`; `BgRect` only `BgRect`; `Figure` and `Move` only
`Figures`; `Reset` only `Background`, `BgRect` and `Figures`; `Update`
nothing; and no operation changes `WindowSize`, `Screen` or `Texture`. -/
theorem do_frame (o : Operation) (state : LoopState) :
    ((o.Do state).1.WindowSize = state.WindowSize ∧ (o.Do state).1.Screen = state.Screen ∧
      (o.Do state).1.Texture = state.Texture) ∧
    (o = Operation.WhiteOperation ∨ o = Operation.GreenOperation →
      (o.Do state).1.BgRect = state.BgRect ∧ (o.Do state).1.Figures = state.Figures) ∧
    ((∃ X1 Y1 X2 Y2, o = Operation.BgRectOperation X1 Y1 X2 Y2) →
      (o.Do state).1.Background = state.Background ∧
      (o.Do state).1.Figures = state.Figures) ∧
    ((∃ X Y, o = Operation.FigureOperation X Y ∨ o = Operation.MoveOperation X Y) →
      (o.Do state).1.Background = state.Background ∧ (o.Do state).1.BgRect = state.BgRect) ∧
    (o = Operation.UpdateOperation → (o.Do state).1 = state) := by
  refine ⟨⟨?_, Do_Screen o state, Do_Texture o state⟩, ?_, ?_, ?_, ?_⟩
  · cases o <;> simp only [Operation.Do] <;> cases state.Texture <;> rfl
  · rintro (rfl | rfl) <;> exact ⟨rfl, rfl⟩
  · rintro ⟨X1, Y1, X2, Y2, rfl⟩
    exact ⟨rfl, rfl⟩
  · rintro ⟨X, Y, rfl | rfl⟩ <;> simp only [Operation.Do] <;> cases state.Texture <;>
      exact ⟨rfl, rfl⟩
  · rintro rfl
    rfl

/-- A client call changes neither the canvas state nor the lifecycle flags. -/
theorem ClientCall_run_frame (c : ClientCall) (l : Loop) :
    (c.run l).State = l.State ∧ (c.run l).stopped = l.stopped ∧ (c.run l).stop = l.stop := by
  cases c with
  | Post op =>
      simp only [ClientCall.run, Post]
      split <;> exact ⟨rfl, rfl, rfl⟩
  | SetReceiver r =>
      simp only [ClientCall.run, SetReceiver, Post]
      split
      · split <;> exact ⟨rfl, rfl, rfl⟩
      · exact ⟨rfl, rfl, rfl⟩

/-- Client calls change neither the canvas state nor the lifecycle flags. -/
theorem afterCalls_frame (calls : List ClientCall) (l : Loop) :
    (afterCalls l calls).State = l.State ∧ (afterCalls l calls).stopped = l.stopped := by
  induction calls generalizing l with
  | nil => exact ⟨rfl, rfl⟩
  | cons c cs ih =>
      have h := ih (c.run l)
      have hc := ClientCall_run_frame c l
      exact ⟨h.1.trans hc.1, h.2.trans hc.2.1⟩

/-- C18 (amended): the iteration that takes the stop signal releases the
surface if there is one, sets the surface handle to none, changes nothing
else of the canvas state and ends `Start`; from then on, whatever the
clients call, no iteration is left, so no operation is processed and the
canvas state never changes again.  A later `Post` is still queued while the
queue has room; it is never dequeued. -/
theorem stop_is_terminal (l l1 : Loop) (ev : List Event)
    (h : iterate l Choice.stop = some (Except.ok (l1, ev))) :
    (ev = match l.State.Texture with
      | some t => [Event.Release t]
      | none => []) ∧
    l1.State = { l.State with Texture := none } ∧ l1.stopped = true ∧
    (∀ (calls : List ClientCall) (c : Choice),
      iterate (afterCalls l1 calls) c = none ∧ (afterCalls l1 calls).State = l1.State) ∧
    (∀ op, l1.MsgQueue.length < 100 → (Post l1 op).MsgQueue = l1.MsgQueue ++ [op]) := by
  unfold iterate at h
  by_cases hst : l.stopped = true
  · simp [hst] at h
  · simp only [hst, Bool.false_eq_true, if_false, recvStop] at h
    by_cases hstop : l.stop = true
    · simp only [hstop, if_true] at h
      have key : l1.stopped = true ∧ l1.State = { l.State with Texture := none } ∧
          (ev = match l.State.Texture with
            | some t => [Event.Release t]
            | none => []) := by
        cases ht : l.State.Texture with
        | none =>
            simp only [ht, Option.map_some', Option.some.injEq, Except.ok.injEq,
              Prod.mk.injEq] at h
            obtain ⟨h1, h2⟩ := h
            subst h1 h2
            refine ⟨rfl, ?_, rfl⟩
            show l.State = { l.State with Texture := none }
            rw [← ht]
        | some t =>
            simp only [ht, Option.map_some', Option.some.injEq, Except.ok.injEq,
              Prod.mk.injEq] at h
            obtain ⟨h1, h2⟩ := h
            subst h1 h2
            exact ⟨rfl, rfl, rfl⟩
      refine ⟨key.2.2, key.2.1, key.1, ?_, ?_⟩
      · intro calls c
        have hf := afterCalls_frame calls l1
        refine ⟨?_, hf.1⟩
        unfold iterate
        rw [hf.2, key.1]
        rfl
      · intro op hlen
        simp [Post, queueCap, hlen]
    · simp [hstop] at h

/-- C18, witness: the initial loop, stopped, releases its texture, and a
later `white` followed by an attempt to iterate leaves the state as it is. -/
theorem stop_is_terminal_witness :
    iterate (Stop initialLoop) Choice.stop =
      some (Except.ok (stoppedLoop, [Event.Release tex800])) ∧
    ((([Event.Release tex800] : List Event) = match (Stop initialLoop).State.Texture with
      | some t => [Event.Release t]
      | none => []) ∧
    stoppedLoop.State = { (Stop initialLoop).State with Texture := none } ∧
    stoppedLoop.stopped = true ∧
    (∀ (calls : List ClientCall) (c : Choice),
      iterate (afterCalls stoppedLoop calls) c = none ∧
        (afterCalls stoppedLoop calls).State = stoppedLoop.State) ∧
    (∀ op, stoppedLoop.MsgQueue.length < 100 →
      (Post stoppedLoop op).MsgQueue = stoppedLoop.MsgQueue ++ [op])) :=
  ⟨rfl, stop_is_terminal (Stop initialLoop) stoppedLoop [Event.Release tex800] rfl⟩

/-- C18 as stated fails for `Post`: after the loop has taken the stop signal
a `Post` still appends its operation to the queue. -/
theorem stop_is_terminal_counterexample :
    iterate (Stop initialLoop) Choice.stop =
      some (Except.ok (stoppedLoop, [Event.Release tex800])) ∧
    stoppedLoop.MsgQueue = [] ∧
    (Post stoppedLoop Operation.WhiteOperation).MsgQueue = [Operation.WhiteOperation] ∧
    (Post stoppedLoop Operation.WhiteOperation).MsgQueue ≠ stoppedLoop.MsgQueue :=
  ⟨rfl, rfl, by decide, by decide⟩

/-! ## Theorems: a missing surface -/

/-- When the surface is missing and `NewTexture` returns a non-nil error, the
iteration ends the process in `log.Fatalf`, whatever the operation. -/
theorem processOp_fatal (l : Loop) (op : Operation) (scr : Screen)
    (ht : l.State.Texture = none) (hs : l.State.Screen = some scr)
    (herr : (scr.NewTexture
      (if l.State.WindowSize.X = 0 ∨ l.State.WindowSize.Y = 0 then ⟨800, 800⟩
        else l.State.WindowSize)).2 = true) :
    processOp l op = Except.error Crash.fatal := by
  unfold processOp
  simp only [ht, hs, Option.isNone_none, Option.isSome_some, and_self, if_true, resetTexture,
    herr]

/-- When the surface is missing and `NewTexture` returns a nil texture with a
nil error, the iteration skips the operation: `Do` is not applied, nothing is
painted and the receiver is not called. -/
theorem processOp_skip (l : Loop) (op : Operation) (scr : Screen)
    (ht : l.State.Texture = none) (hs : l.State.Screen = some scr)
    (hw : ¬ (l.State.WindowSize.X = 0 ∨ l.State.WindowSize.Y = 0))
    (hnil : scr.NewTexture l.State.WindowSize = (none, false)) :
    processOp l op = Except.ok (l, [Event.NewTexture l.State.WindowSize]) := by
  unfold processOp
  simp only [ht, hs, Option.isNone_none, Option.isSome_some, and_self, if_true, resetTexture,
    hw, if_false, hnil, Bool.false_eq_true, drawCurrentState, List.nil_append, List.append_nil]
  obtain ⟨rcv, ⟨tex, bg, rect, figs, screen, size⟩, queue, stop, stopped⟩ := l
  simp only at ht hs
  subst ht hs
  rfl

/-- C20: a failed recreation of the surface ends the process.  On a loop
without a surface whose screen returns an error from `NewTexture`, the
iteration that dequeues `white` ends in `log.Fatalf`: the operation is not
skipped and the `green` queued behind it is never processed. -/
theorem recreate_failure_is_fatal :
    failingLoop.State.Texture = none ∧
    (failingScreen.NewTexture failingLoop.State.WindowSize).2 = true ∧
    recvOp { failingLoop with
        MsgQueue := [Operation.WhiteOperation, Operation.GreenOperation] } =
      some (Except.error Crash.fatal) ∧
    drain { failingLoop with
        MsgQueue := [Operation.WhiteOperation, Operation.GreenOperation] } =
      Except.error Crash.fatal :=
  ⟨rfl, rfl, rfl, rfl⟩

/-! ## Theorems: rectangles on the surface -/

/-- Go `image.Rect` does not depend on the order of the two corners. -/
theorem Rect_swap (x0 y0 x1 y1 : Int) : Rect x0 y0 x1 y1 = Rect x1 y1 x0 y0 := by
  unfold Rect
  have hx : (if x0 > x1 then (x1, x0) else (x0, x1)) =
      (if x1 > x0 then (x0, x1) else (x1, x0) : Int × Int) := by
    by_cases h1 : x0 > x1
    · have h2 : ¬ x1 > x0 := by omega
      rw [if_pos h1, if_neg h2]
    · by_cases h2 : x1 > x0
      · rw [if_neg h1, if_pos h2]
      · have : x0 = x1 := by omega
        rw [if_neg h1, if_neg h2, this]
  have hy : (if y0 > y1 then (y1, y0) else (y0, y1)) =
      (if y1 > y0 then (y0, y1) else (y1, y0) : Int × Int) := by
    by_cases h1 : y0 > y1
    · have h2 : ¬ y1 > y0 := by omega
      rw [if_pos h1, if_neg h2]
    · by_cases h2 : y1 > y0
      · rw [if_neg h1, if_pos h2]
      · have : y0 = y1 := by omega
        rw [if_neg h1, if_neg h2, this]
  simp only [hx, hy]

/-- The rectangle of `image.Rect` is empty exactly when the corners share a
column or a row. -/
theorem Rect_Empty_iff (x0 y0 x1 y1 : Int) :
    (Rect x0 y0 x1 y1).Empty = true ↔ x0 = x1 ∨ y0 = y1 := by
  unfold Rect Rectangle.Empty
  simp only [Bool.or_eq_true, decide_eq_true_eq]
  by_cases hx : x0 > x1 <;> by_cases hy : y0 > y1 <;> simp only [hx, hy, if_true, if_false] <;>
    omega

/-- C21 (amended): for every surface and every background rectangle,
degenerate or not, the black rectangle that `drawCurrentState` fills is the
one spanned by the two pixel corners whatever their order: it is the
rectangle filled for the same corners exchanged, and it is empty only when
the two corners fall in the same pixel column or the same pixel row. -/
theorem degenerate_rect_is_swapped (state : LoopState) (tex : Texture) (r : RelativeRectangle)
    (ht : state.Texture = some tex) (hr : state.BgRect = some r) :
    Event.Fill tex (pixelRect tex r) Color.Black ∈ drawCurrentState state ∧
    pixelRect tex r = pixelRect tex ⟨r.X2, r.Y2, r.X1, r.Y1⟩ ∧
    ((pixelRect tex r).Empty = true ↔
      (toPixel r.X1 tex.bounds.Dx = toPixel r.X2 tex.bounds.Dx ∨
        toPixel r.Y1 tex.bounds.Dy = toPixel r.Y2 tex.bounds.Dy)) := by
  refine ⟨?_, Rect_swap _ _ _ _, Rect_Empty_iff _ _ _ _⟩
  rw [drawCurrentState_eq_fullRepaint state tex ht]
  unfold fullRepaint
  rw [hr]
  simp

/-- C21, witness: on the 800x800 surface the rectangle `(0.9, 0.9, 0.1, 0.1)`
is painted like `(0.1, 0.1, 0.9, 0.9)`. -/
theorem degenerate_rect_is_swapped_witness :
    pixelRect tex800 ⟨F64.tenth, F64.tenth, F64.ninetenths, F64.ninetenths⟩ =
      ⟨⟨80, 80⟩, ⟨720, 720⟩⟩ ∧
    (Event.Fill tex800
        (pixelRect tex800 ⟨F64.ninetenths, F64.ninetenths, F64.tenth, F64.tenth⟩) Color.Black ∈
      drawCurrentState { initialLoop.State with
        BgRect := some ⟨F64.ninetenths, F64.ninetenths, F64.tenth, F64.tenth⟩ } ∧
    pixelRect tex800 ⟨F64.ninetenths, F64.ninetenths, F64.tenth, F64.tenth⟩ =
      pixelRect tex800 ⟨F64.tenth, F64.tenth, F64.ninetenths, F64.ninetenths⟩ ∧
    ((pixelRect tex800 ⟨F64.ninetenths, F64.ninetenths, F64.tenth, F64.tenth⟩).Empty = true ↔
      (toPixel F64.ninetenths tex800.bounds.Dx = toPixel F64.tenth tex800.bounds.Dx ∨
        toPixel F64.ninetenths tex800.bounds.Dy = toPixel F64.tenth tex800.bounds.Dy))) :=
  ⟨by decide,
    degenerate_rect_is_swapped
      { initialLoop.State with
        BgRect := some ⟨F64.ninetenths, F64.ninetenths, F64.tenth, F64.tenth⟩ }
      tex800 ⟨F64.ninetenths, F64.ninetenths, F64.tenth, F64.tenth⟩ rfl rfl⟩

/-- C21 as stated fails: `bgrect 0.9 0.9 0.1 0.1` is accepted, is degenerate
(`x1 >= x2` and `y1 >= y2`), and on the 800x800 surface `drawCurrentState`
fills for it the square `(80,80)-(720,720)` in black, 640 by 640 pixels, the
very rectangle filled for `(0.1, 0.1, 0.9, 0.9)`. -/
theorem degenerate_rect_is_swapped_counterexample :
    parseCommandLine "bgrect 0.9 0.9 0.1 0.1" =
      some (Operation.BgRectOperation F64.ninetenths F64.ninetenths F64.tenth F64.tenth) ∧
    F64.ge F64.ninetenths F64.tenth = true ∧
    fillsOf (drawCurrentState { initialLoop.State with
        BgRect := some ⟨F64.ninetenths, F64.ninetenths, F64.tenth, F64.tenth⟩ }) =
      [Event.Fill tex800 tex800.bounds (Color.RGBA 0 0xff 0 0xff),
        Event.Fill tex800 ⟨⟨80, 80⟩, ⟨720, 720⟩⟩ Color.Black] ++ drawFigure tex800 400 400 ∧
    (⟨⟨80, 80⟩, ⟨720, 720⟩⟩ : Rectangle).area = 640 * 640 ∧
    pixelRect tex800 ⟨F64.tenth, F64.tenth, F64.ninetenths, F64.ninetenths⟩ =
      ⟨⟨80, 80⟩, ⟨720, 720⟩⟩ := by
  decide

/-- The 64-bit wrap of an integer is a Go `int`. -/
theorem wrapInt_range (z : Int) :
    -9223372036854775808 ≤ wrapInt z ∧ wrapInt z ≤ 9223372036854775807 := by
  unfold wrapInt
  omega

/-- The 64-bit wrap leaves a Go `int` as it is. -/
theorem wrapInt_of_range (z : Int) (h1 : -9223372036854775808 ≤ z)
    (h2 : z ≤ 9223372036854775807) : wrapInt z = z := by
  unfold wrapInt
  omega

/-- Half of a Go `int`, truncated toward zero. -/
theorem tdiv_two_range (a : Int) (h1 : -9223372036854775808 ≤ a)
    (h2 : a ≤ 9223372036854775807) :
    -4611686018427387904 ≤ Int.tdiv a 2 ∧ Int.tdiv a 2 ≤ 4611686018427387903 := by
  by_cases ha : 0 ≤ a
  · rw [Int.tdiv_eq_ediv ha (by decide)]
    omega
  · have hneg : Int.tdiv a 2 = -(Int.tdiv (-a) 2) := by
      rw [Int.neg_tdiv, Int.neg_neg]
    rw [hneg, Int.tdiv_eq_ediv (by omega) (by decide)]
    omega

/-- The figure width is at least 20 and its half at least 10. -/
theorem figureWidth_range (tex : Texture) :
    20 ≤ figureWidth tex ∧ figureWidth tex ≤ 4611686018427387903 ∧
    10 ≤ Int.tdiv (figureWidth tex) 2 ∧
    Int.tdiv (figureWidth tex) 2 ≤ 2305843009213693951 := by
  have hd := wrapInt_range (tex.bounds.Max.X - tex.bounds.Min.X)
  have ht := tdiv_two_range tex.bounds.Dx hd.1 hd.2
  have h20 : 20 ≤ figureWidth tex ∧ figureWidth tex ≤ 4611686018427387903 := by
    unfold figureWidth
    split <;> omega
  refine ⟨h20.1, h20.2, ?_, ?_⟩ <;>
    · rw [Int.tdiv_eq_ediv (by omega) (by decide)]
      omega

/-- The figure height is at least 20 and its half at least 10. -/
theorem figureHeight_range (tex : Texture) :
    20 ≤ figureHeight tex ∧ figureHeight tex ≤ 4611686018427387903 ∧
    10 ≤ Int.tdiv (figureHeight tex) 2 ∧
    Int.tdiv (figureHeight tex) 2 ≤ 2305843009213693951 := by
  have hd := wrapInt_range (tex.bounds.Max.Y - tex.bounds.Min.Y)
  have ht := tdiv_two_range tex.bounds.Dy hd.1 hd.2
  have h20 : 20 ≤ figureHeight tex ∧ figureHeight tex ≤ 4611686018427387903 := by
    unfold figureHeight
    split <;> omega
  refine ⟨h20.1, h20.2, ?_, ?_⟩ <;>
    · rw [Int.tdiv_eq_ediv (by omega) (by decide)]
      omega

/-- The line width is at least 2 and at most the figure height; its half is
at least 1 and at most half the figure height. -/
theorem lineWidth_range (tex : Texture) :
    2 ≤ lineWidth tex ∧ lineWidth tex ≤ 576460752303423487 ∧
    1 ≤ Int.tdiv (lineWidth tex) 2 ∧
    Int.tdiv (lineWidth tex) 2 ≤ Int.tdiv (figureHeight tex) 2 := by
  have hh := figureHeight_range tex
  have h8 : Int.tdiv (figureHeight tex) 8 = figureHeight tex / 8 :=
    Int.tdiv_eq_ediv (by omega) (by decide)
  have h2 : 2 ≤ lineWidth tex ∧ lineWidth tex ≤ 576460752303423487 ∧
      lineWidth tex ≤ figureHeight tex := by
    unfold lineWidth
    rw [h8]
    split <;> omega
  have hl : Int.tdiv (lineWidth tex) 2 = lineWidth tex / 2 :=
    Int.tdiv_eq_ediv (by omega) (by decide)
  have hf : Int.tdiv (figureHeight tex) 2 = figureHeight tex / 2 :=
    Int.tdiv_eq_ediv (by omega) (by decide)
  rw [hl, hf]
  omega

/-- The two `Fill` calls of `drawFigure` are those of the vertical and of the
horizontal bar. -/
theorem drawFigure_eq (tex : Texture) (x y : Int) :
    drawFigure tex x y =
      [Event.Fill tex (vRect tex x y) (Color.RGBA 0xff 0xff 0x00 0xff),
        Event.Fill tex (hRect tex x y) (Color.RGBA 0xff 0xff 0x00 0xff)] := rfl

/-- C23 (amended): for every surface, whatever its size, and every figure,
`drawFigure` uses a figure width and a figure height of at least 20 and a
line width of at least 2, and the first rectangle it fills, the vertical
bar, is not empty: it is at least 2 pixels wide and at least 20 pixels high.
When the surface has at least one pixel and the figure lies within its
bounds (and within `2^61` of the origin, so that the pixel arithmetic does
not wrap), at least one of the two bars has a pixel in common with the
surface; when the surface has no pixel, neither bar has. -/
theorem figure_mark_on_surface (tex : Texture) (x y : Int) :
    20 ≤ figureWidth tex ∧ 20 ≤ figureHeight tex ∧ 2 ≤ lineWidth tex ∧
    drawFigure tex x y =
      [Event.Fill tex (vRect tex x y) (Color.RGBA 0xff 0xff 0x00 0xff),
        Event.Fill tex (hRect tex x y) (Color.RGBA 0xff 0xff 0x00 0xff)] ∧
    (vRect tex x y).Empty = false ∧
    (vRect tex x y).Min.X + 2 ≤ (vRect tex x y).Max.X ∧
    (vRect tex x y).Min.Y + 20 ≤ (vRect tex x y).Max.Y ∧
    (tex.bounds.Empty = false →
      tex.bounds.Min.X ≤ x ∧ x ≤ tex.bounds.Max.X →
      tex.bounds.Min.Y ≤ y ∧ y ≤ tex.bounds.Max.Y →
      -2305843009213693952 ≤ x ∧ x ≤ 2305843009213693952 →
      -2305843009213693952 ≤ y ∧ y ≤ 2305843009213693952 →
      (vRect tex x y).Overlaps tex.bounds = true ∨
        (hRect tex x y).Overlaps tex.bounds = true) ∧
    (tex.bounds.Empty = true →
      (vRect tex x y).Overlaps tex.bounds = false ∧
        (hRect tex x y).Overlaps tex.bounds = false) := by
  have hw := figureWidth_range tex
  have hh := figureHeight_range tex
  have hl := lineWidth_range tex
  have hdim : (vRect tex x y).Min.X + 2 ≤ (vRect tex x y).Max.X ∧
      (vRect tex x y).Min.Y + 20 ≤ (vRect tex x y).Max.Y := by
    unfold vRect Rect
    generalize Int.tdiv (figureWidth tex) 2 = w2 at hw ⊢
    generalize Int.tdiv (figureHeight tex) 2 = h2 at hh hl ⊢
    generalize lineWidth tex = lw at hl ⊢
    simp only []
    unfold wrapInt
    constructor
    · split <;> simp only [] <;> omega
    · split <;> simp only [] <;> omega
  refine ⟨hw.1, hh.1, hl.1, rfl, ?_, hdim.1, hdim.2, ?_, ?_⟩
  · unfold Rectangle.Empty
    simp only [Bool.or_eq_false_iff, decide_eq_false_iff_not]
    omega
  · intro hne hbx hby hx hy
    have e1 : wrapInt (x - Int.tdiv (figureWidth tex) 2) = x - Int.tdiv (figureWidth tex) 2 :=
      wrapInt_of_range _ (by omega) (by omega)
    have e2 : wrapInt (x - Int.tdiv (figureWidth tex) 2 + lineWidth tex) =
        x - Int.tdiv (figureWidth tex) 2 + lineWidth tex :=
      wrapInt_of_range _ (by omega) (by omega)
    have e3 : wrapInt (x + Int.tdiv (figureWidth tex) 2) = x + Int.tdiv (figureWidth tex) 2 :=
      wrapInt_of_range _ (by omega) (by omega)
    have e4 : wrapInt (y - Int.tdiv (figureHeight tex) 2) = y - Int.tdiv (figureHeight tex) 2 :=
      wrapInt_of_range _ (by omega) (by omega)
    have e5 : wrapInt (y + Int.tdiv (figureHeight tex) 2) = y + Int.tdiv (figureHeight tex) 2 :=
      wrapInt_of_range _ (by omega) (by omega)
    have e6 : wrapInt (y - Int.tdiv (lineWidth tex) 2) = y - Int.tdiv (lineWidth tex) 2 :=
      wrapInt_of_range _ (by omega) (by omega)
    have e7 : wrapInt (y + Int.tdiv (lineWidth tex) 2) = y + Int.tdiv (lineWidth tex) 2 :=
      wrapInt_of_range _ (by omega) (by omega)
    unfold vRect hRect
    rw [e1, e2, e3, e4, e5, e6, e7]
    generalize Int.tdiv (figureWidth tex) 2 = w2 at hw ⊢
    generalize Int.tdiv (figureHeight tex) 2 = h2 at hh hl ⊢
    generalize Int.tdiv (lineWidth tex) 2 = l2 at hl ⊢
    generalize lineWidth tex = lw at hl ⊢
    unfold Rectangle.Empty at hne
    simp only [Bool.or_eq_false_iff, decide_eq_false_iff_not] at hne
    unfold Rectangle.Overlaps Rectangle.Empty Rect
    simp only [Bool.and_eq_true, Bool.not_eq_true', Bool.or_eq_false_iff, decide_eq_false_iff_not,
      decide_eq_true_eq]
    have hv1 : ¬ (x - w2 > x - w2 + lw) := by omega
    have hv2 : ¬ (y - h2 > y + h2) := by omega
    have hh2 : ¬ (y - l2 > y + l2) := by omega
    simp only [hv1, hv2, hh2, if_false]
    by_cases hb : x - w2 + lw > x + w2
    · left
      omega
    · simp only [hb, if_false]
      omega
  · intro he
    unfold Rectangle.Overlaps
    rw [he]
    simp

/-- C23, witness: on the 800x800 surface the vertical bar of the figure at
`(400, 400)` lies on the surface; on the surface of one pixel the figure at
`(1, 1)` shows through its horizontal bar only. -/
theorem figure_mark_on_surface_witness :
    tex800.bounds.Empty = false ∧
    (vRect tex800 400 400).Overlaps tex800.bounds = true ∧
    (vRect (texOf 1 1) 1 1).Overlaps (texOf 1 1).bounds = false ∧
    (hRect (texOf 1 1) 1 1).Overlaps (texOf 1 1).bounds = true ∧
    ((vRect tex800 400 400).Overlaps tex800.bounds = true ∨
      (hRect tex800 400 400).Overlaps tex800.bounds = true) :=
  ⟨by decide, by decide, by decide, by decide,
    (figure_mark_on_surface tex800 400 400).2.2.2.2.2.2.2.1 (by decide) (by decide) (by decide)
      (by decide) (by decide)⟩

/-- C23 as stated fails on the zero-sized surface: the figure that
`figure 0.5 0.5` places there, at `(0, 0)`, is drawn as the bars
`(-10,-10)-(-8,10)` and `(-8,-1)-(10,1)`, and neither has a pixel in common
with the surface `(0,0)-(0,0)`.  It also fails for the initial figure
`(400, 400)` of `NewLoop` on a surface of 20 by 20 pixels: both bars lie
beyond the surface. -/
theorem figure_mark_on_surface_counterexample :
    (((Operation.FigureOperation F64.half F64.half).Do
        { initialLoop.State with Texture := some (texOf 0 0), Figures := [] }).1.Figures =
      [⟨0, 0⟩] ∧
      drawFigure (texOf 0 0) 0 0 =
        [Event.Fill (texOf 0 0) ⟨⟨-10, -10⟩, ⟨-8, 10⟩⟩ (Color.RGBA 0xff 0xff 0x00 0xff),
          Event.Fill (texOf 0 0) ⟨⟨-8, -1⟩, ⟨10, 1⟩⟩ (Color.RGBA 0xff 0xff 0x00 0xff)] ∧
      (⟨⟨-10, -10⟩, ⟨-8, 10⟩⟩ : Rectangle).Overlaps (texOf 0 0).bounds = false ∧
      (⟨⟨-8, -1⟩, ⟨10, 1⟩⟩ : Rectangle).Overlaps (texOf 0 0).bounds = false) ∧
    (drawFigure (texOf 20 20) 400 400 =
        [Event.Fill (texOf 20 20) ⟨⟨390, 390⟩, ⟨392, 410⟩⟩ (Color.RGBA 0xff 0xff 0x00 0xff),
          Event.Fill (texOf 20 20) ⟨⟨392, 399⟩, ⟨410, 401⟩⟩ (Color.RGBA 0xff 0xff 0x00 0xff)] ∧
      (⟨⟨390, 390⟩, ⟨392, 410⟩⟩ : Rectangle).Overlaps (texOf 20 20).bounds = false ∧
      (⟨⟨392, 399⟩, ⟨410, 401⟩⟩ : Rectangle).Overlaps (texOf 20 20).bounds = false) := by
  decide

/-- C22 (amended): for every surface and every figure position within
`2^61` of the origin (so that the pixel arithmetic does not wrap), the
vertical and the horizontal bar of `drawFigure` overlap exactly when the
line width exceeds twice the half figure width, which takes a surface far
taller than wide; otherwise the horizontal bar starts in the column where
the vertical bar ends and the two rectangles, as half-open pixel
rectangles, have no pixel in common. -/
theorem figure_bars_adjacent (tex : Texture) (x y : Int)
    (hx : -2305843009213693952 ≤ x ∧ x ≤ 2305843009213693952)
    (hy : -2305843009213693952 ≤ y ∧ y ≤ 2305843009213693952) :
    ((vRect tex x y).Overlaps (hRect tex x y) = true ↔
      2 * Int.tdiv (figureWidth tex) 2 < lineWidth tex) ∧
    (lineWidth tex ≤ 2 * Int.tdiv (figureWidth tex) 2 →
      (vRect tex x y).Max.X = (hRect tex x y).Min.X ∧
      (vRect tex x y).Overlaps (hRect tex x y) = false) := by
  have hw := figureWidth_range tex
  have hh := figureHeight_range tex
  have hl := lineWidth_range tex
  have e1 : wrapInt (x - Int.tdiv (figureWidth tex) 2) = x - Int.tdiv (figureWidth tex) 2 :=
    wrapInt_of_range _ (by omega) (by omega)
  have e2 : wrapInt (x - Int.tdiv (figureWidth tex) 2 + lineWidth tex) =
      x - Int.tdiv (figureWidth tex) 2 + lineWidth tex :=
    wrapInt_of_range _ (by omega) (by omega)
  have e3 : wrapInt (x + Int.tdiv (figureWidth tex) 2) = x + Int.tdiv (figureWidth tex) 2 :=
    wrapInt_of_range _ (by omega) (by omega)
  have e4 : wrapInt (y - Int.tdiv (figureHeight tex) 2) = y - Int.tdiv (figureHeight tex) 2 :=
    wrapInt_of_range _ (by omega) (by omega)
  have e5 : wrapInt (y + Int.tdiv (figureHeight tex) 2) = y + Int.tdiv (figureHeight tex) 2 :=
    wrapInt_of_range _ (by omega) (by omega)
  have e6 : wrapInt (y - Int.tdiv (lineWidth tex) 2) = y - Int.tdiv (lineWidth tex) 2 :=
    wrapInt_of_range _ (by omega) (by omega)
  have e7 : wrapInt (y + Int.tdiv (lineWidth tex) 2) = y + Int.tdiv (lineWidth tex) 2 :=
    wrapInt_of_range _ (by omega) (by omega)
  unfold vRect hRect
  rw [e1, e2, e3, e4, e5, e6, e7]
  generalize Int.tdiv (figureWidth tex) 2 = w2 at hw ⊢
  generalize Int.tdiv (figureHeight tex) 2 = h2 at hh hl ⊢
  generalize Int.tdiv (lineWidth tex) 2 = l2 at hl ⊢
  generalize lineWidth tex = lw at hl ⊢
  unfold Rectangle.Overlaps Rectangle.Empty Rect
  simp only [Bool.and_eq_true, Bool.not_eq_true', Bool.or_eq_false_iff, decide_eq_false_iff_not,
    decide_eq_true_eq, Bool.and_eq_false_iff, Bool.or_eq_true, Bool.not_eq_false']
  have hv1 : ¬ (x - w2 > x - w2 + lw) := by omega
  have hv2 : ¬ (y - h2 > y + h2) := by omega
  have hh2 : ¬ (y - l2 > y + l2) := by omega
  simp only [hv1, hv2, hh2, if_false]
  by_cases hb : x - w2 + lw > x + w2
  · simp only [hb, if_true, and_true, not_true_eq_false, or_false]
    omega
  · simp only [hb, if_false, and_true, true_and, not_true_eq_false, or_false]
    omega

/-- C22, witness: on the 800x800 surface the bars of the figure at
`(400, 400)` are `(200,200)-(250,600)` and `(250,375)-(600,425)`: the second
starts in the column where the first ends; on a surface 40 wide and 8000
high the line width 500 exceeds the figure width and the bars overlap. -/
theorem figure_bars_adjacent_witness :
    vRect tex800 400 400 = ⟨⟨200, 200⟩, ⟨250, 600⟩⟩ ∧
    hRect tex800 400 400 = ⟨⟨250, 375⟩, ⟨600, 425⟩⟩ ∧
    lineWidth (texOf 40 8000) = 500 ∧ Int.tdiv (figureWidth (texOf 40 8000)) 2 = 10 ∧
    (vRect (texOf 40 8000) 20 4000).Overlaps (hRect (texOf 40 8000) 20 4000) = true ∧
    (((vRect tex800 400 400).Overlaps (hRect tex800 400 400) = true ↔
      2 * Int.tdiv (figureWidth tex800) 2 < lineWidth tex800) ∧
    (lineWidth tex800 ≤ 2 * Int.tdiv (figureWidth tex800) 2 →
      (vRect tex800 400 400).Max.X = (hRect tex800 400 400).Min.X ∧
      (vRect tex800 400 400).Overlaps (hRect tex800 400 400) = false)) :=
  ⟨by decide, by decide, by decide, by decide, by decide,
    figure_bars_adjacent tex800 400 400 (by decide) (by decide)⟩

/-- C22 as stated fails on the surface of the tests: the two rectangles that
`drawFigure` fills for the figure at `(400, 400)` of the 800x800 surface
share the edge `x = 250` and have no pixel in common. -/
theorem figure_bars_adjacent_counterexample :
    drawFigure tex800 400 400 =
      [Event.Fill tex800 ⟨⟨200, 200⟩, ⟨250, 600⟩⟩ (Color.RGBA 0xff 0xff 0x00 0xff),
        Event.Fill tex800 ⟨⟨250, 375⟩, ⟨600, 425⟩⟩ (Color.RGBA 0xff 0xff 0x00 0xff)] ∧
    (⟨⟨200, 200⟩, ⟨250, 600⟩⟩ : Rectangle).Overlaps ⟨⟨250, 375⟩, ⟨600, 425⟩⟩ = false := by
  decide

/-! ## Theorems: rounding and pixel coordinates -/

/-- The number of binary digits of 0, whatever the fuel. -/
theorem bitLenAux_zero (fuel : Nat) : bitLenAux fuel 0 = 0 := by
  cases fuel <;> simp [bitLenAux]

/-- With enough fuel, a positive `n` lies between `2^(bitLen - 1)` and
`2^bitLen`. -/
theorem bitLenAux_spec (fuel n : Nat) (hn : 0 < n) (hf : n ≤ fuel) :
    1 ≤ bitLenAux fuel n ∧ 2 ^ (bitLenAux fuel n - 1) ≤ n ∧ n < 2 ^ bitLenAux fuel n := by
  induction fuel generalizing n with
  | zero => omega
  | succ fuel ih =>
      have hne : n ≠ 0 := by omega
      simp only [bitLenAux, hne, if_false]
      by_cases h2 : n / 2 = 0
      · have h1 : n = 1 := by omega
        rw [h2, bitLenAux_zero, h1]
        decide
      · have hpos : 0 < n / 2 := Nat.pos_of_ne_zero h2
        have hle : n / 2 ≤ fuel := by omega
        obtain ⟨hb1, hlo, hhi⟩ := ih (n / 2) hpos hle
        refine ⟨by omega, ?_, ?_⟩
        · have hpow : 2 ^ (bitLenAux fuel (n / 2) + 1 - 1) =
              2 * 2 ^ (bitLenAux fuel (n / 2) - 1) := by
            have : bitLenAux fuel (n / 2) + 1 - 1 = (bitLenAux fuel (n / 2) - 1) + 1 := by omega
            rw [this, Nat.pow_succ, Nat.mul_comm]
          rw [hpow]
          omega
        · rw [Nat.pow_succ]
          omega

/-- A positive `n` lies between `2^(bitLen n - 1)` and `2^(bitLen n)`. -/
theorem bitLen_spec (n : Nat) (hn : 0 < n) :
    1 ≤ bitLen n ∧ 2 ^ (bitLen n - 1) ≤ n ∧ n < 2 ^ bitLen n :=
  bitLenAux_spec n n hn (Nat.le_refl n)

/-- The steps of `F64.round` on a positive numerator. -/
theorem F64.round_eq (neg : Bool) (p q : Nat) (hp : p ≠ 0) :
    F64.round neg p q =
      if F64.roundMant p q (F64.roundExp p q) = 2 ^ 53 then
        (if 971 < F64.roundExp p q + 1 then F64.inf neg
          else F64.fin neg (2 ^ 52) (F64.roundExp p q + 1))
      else
        (if 971 < F64.roundExp p q then F64.inf neg
          else F64.fin neg (F64.roundMant p q (F64.roundExp p q)) (F64.roundExp p q)) := by
  unfold F64.round
  rw [if_neg hp]
  show (if 971 < (if F64.roundMant p q (F64.roundExp p q) = 2 ^ 53 then
      ((2 ^ 52 : Nat), F64.roundExp p q + 1)
      else (F64.roundMant p q (F64.roundExp p q), F64.roundExp p q)).2 then F64.inf neg
    else F64.fin neg
      (if F64.roundMant p q (F64.roundExp p q) = 2 ^ 53 then
        ((2 ^ 52 : Nat), F64.roundExp p q + 1)
        else (F64.roundMant p q (F64.roundExp p q), F64.roundExp p q)).1
      (if F64.roundMant p q (F64.roundExp p q) = 2 ^ 53 then
        ((2 ^ 52 : Nat), F64.roundExp p q + 1)
        else (F64.roundMant p q (F64.roundExp p q), F64.roundExp p q)).2) = _
  split <;> rfl

/-- Comparing `x * 2^a` with `y * 2^b` depends on `a - b` only. -/
theorem pow_shift (x y a b a' b' : Nat) (h : (a : Int) - b = (a' : Int) - b') :
    x * 2 ^ a ≤ y * 2 ^ b ↔ x * 2 ^ a' ≤ y * 2 ^ b' := by
  have hab : a + b' = a' + b := by omega
  have h1 : x * 2 ^ a ≤ y * 2 ^ b ↔ x * 2 ^ (a + b') ≤ y * 2 ^ (b + b') := by
    rw [Nat.pow_add, Nat.pow_add, ← Nat.mul_assoc, ← Nat.mul_assoc]
    exact ⟨fun h => Nat.mul_le_mul_right _ h,
      fun h => Nat.le_of_mul_le_mul_right h (Nat.two_pow_pos _)⟩
  have h2 : x * 2 ^ a' ≤ y * 2 ^ b' ↔ x * 2 ^ (a' + b) ≤ y * 2 ^ (b' + b) := by
    rw [Nat.pow_add, Nat.pow_add, ← Nat.mul_assoc, ← Nat.mul_assoc]
    exact ⟨fun h => Nat.mul_le_mul_right _ h,
      fun h => Nat.le_of_mul_le_mul_right h (Nat.two_pow_pos _)⟩
  rw [h1, h2, hab, Nat.add_comm b b']

/-- Rounding to the nearest integer does not pass an integer bound. -/
theorem F64.roundMant_le (p q K : Nat) (e : Int) (hq : 0 < q)
    (h : p * 2 ^ (-e).toNat ≤ K * (q * 2 ^ e.toNat)) : F64.roundMant p q e ≤ K := by
  unfold F64.roundMant
  simp only []
  have hden : 0 < q * 2 ^ e.toNat := Nat.mul_pos hq (Nat.two_pow_pos _)
  generalize q * 2 ^ e.toNat = den at h hden ⊢
  generalize p * 2 ^ (-e).toNat = num at h ⊢
  have hm0 : num / den ≤ K := by
    apply Nat.div_le_of_le_mul
    rw [Nat.mul_comm]
    exact h
  by_cases hlt : num / den < K
  · split <;> omega
  · have heq : num / den = K := by omega
    have hdm := Nat.div_add_mod num den
    have hr : num % den = 0 := by
      rw [heq] at hdm
      have : den * K + num % den ≤ K * den := by rw [hdm]; exact h
      rw [Nat.mul_comm] at this
      omega
    rw [hr, heq]
    have hc : ¬ (den < 2 * 0 ∨ (2 * 0 = den ∧ K % 2 = 1)) := by omega
    rw [if_neg hc]

/-- At the exponent chosen by `F64.round`, unless it is the least one, the
quotient is at least `2^52`. -/
theorem F64.roundExp_normal (p q : Nat) (hp : 0 < p) (hq : 0 < q)
    (he : -1074 ≤ (if p * 2 ^ (-((bitLen p : Int) - (bitLen q : Int) - 52)).toNat <
        q * 2 ^ ((bitLen p : Int) - (bitLen q : Int) - 52).toNat * 2 ^ 52
      then (bitLen p : Int) - (bitLen q : Int) - 52 - 1
      else (bitLen p : Int) - (bitLen q : Int) - 52)) :
    q * 2 ^ (F64.roundExp p q).toNat * 2 ^ 52 ≤ p * 2 ^ (-(F64.roundExp p q)).toNat := by
  have hbp := bitLen_spec p hp
  have hbq := bitLen_spec q hq
  unfold F64.roundExp
  simp only []
  rw [if_neg (by omega)]
  by_cases hc : p * 2 ^ (-((bitLen p : Int) - (bitLen q : Int) - 52)).toNat <
      q * 2 ^ ((bitLen p : Int) - (bitLen q : Int) - 52).toNat * 2 ^ 52
  · rw [if_pos hc]
    generalize ha : ((bitLen p : Int) - (bitLen q : Int) - 52 - 1).toNat = a
    generalize hb : (-((bitLen p : Int) - (bitLen q : Int) - 52 - 1)).toNat = b
    have hexp : bitLen q + a + 52 = bitLen p - 1 + b := by omega
    calc q * 2 ^ a * 2 ^ 52
        ≤ 2 ^ bitLen q * 2 ^ a * 2 ^ 52 :=
          Nat.mul_le_mul_right _ (Nat.mul_le_mul_right _ (Nat.le_of_lt hbq.2.2))
      _ = 2 ^ (bitLen q + a + 52) := by rw [Nat.pow_add, Nat.pow_add]
      _ = 2 ^ (bitLen p - 1 + b) := by rw [hexp]
      _ = 2 ^ (bitLen p - 1) * 2 ^ b := by rw [Nat.pow_add]
      _ ≤ p * 2 ^ b := Nat.mul_le_mul_right _ hbp.2.1
  · rw [if_neg hc]
    omega

/-- The exponent chosen by `F64.round` for a quotient of at most `N`, with
`N ≤ 2^53`, is at most 1, and `N` is a multiple of the unit of that
exponent. -/
theorem F64.roundExp_grid (p q N : Nat) (hp : 0 < p) (hq : 0 < q) (hN : N ≤ 2 ^ 53)
    (h : p ≤ N * q) :
    F64.roundExp p q ≤ 1 ∧
    ∃ K, N * 2 ^ (-(F64.roundExp p q)).toNat = K * 2 ^ (F64.roundExp p q).toNat := by
  by_cases he : -1074 ≤ (if p * 2 ^ (-((bitLen p : Int) - (bitLen q : Int) - 52)).toNat <
        q * 2 ^ ((bitLen p : Int) - (bitLen q : Int) - 52).toNat * 2 ^ 52
      then (bitLen p : Int) - (bitLen q : Int) - 52 - 1
      else (bitLen p : Int) - (bitLen q : Int) - 52)
  · have hn := F64.roundExp_normal p q hp hq he
    generalize F64.roundExp p q = e at hn ⊢
    by_cases hpos : e ≤ 0
    · refine ⟨by omega, N * 2 ^ (-e).toNat, ?_⟩
      have : e.toNat = 0 := by omega
      rw [this, Nat.pow_zero, Nat.mul_one]
    · have hb : (-e).toNat = 0 := by omega
      rw [hb, Nat.pow_zero, Nat.mul_one] at hn ⊢
      have h1 : q * 2 ^ e.toNat * 2 ^ 52 ≤ N * q := Nat.le_trans hn h
      have h2 : q * (2 ^ e.toNat * 2 ^ 52) ≤ q * N := by
        rw [← Nat.mul_assoc, Nat.mul_comm q N]
        exact h1
      have h3 : 2 ^ e.toNat * 2 ^ 52 ≤ N := Nat.le_of_mul_le_mul_left h2 hq
      have h4 : e.toNat ≤ 1 := by
        by_contra hcon
        have h5 : 2 ^ 2 ≤ 2 ^ e.toNat := Nat.pow_le_pow_right (by decide) (by omega)
        have h6 : 2 ^ 2 * 2 ^ 52 ≤ 2 ^ e.toNat * 2 ^ 52 := Nat.mul_le_mul_right _ h5
        have h7 : (2 : Nat) ^ 53 < 2 ^ 2 * 2 ^ 52 := by decide
        omega
      have h8 : e.toNat = 1 := by omega
      rw [h8] at h3 ⊢
      refine ⟨by omega, 2 ^ 52, ?_⟩
      have h9 : (2 : Nat) ^ 1 * 2 ^ 52 = 2 ^ 53 := by decide
      have h10 : (2 : Nat) ^ 52 * 2 ^ 1 = 2 ^ 53 := by decide
      omega
  · have hexp : F64.roundExp p q = -1074 := by
      unfold F64.roundExp
      simp only []
      rw [if_pos (by omega)]
    rw [hexp]
    exact ⟨by decide, N * 2 ^ (-(-1074 : Int)).toNat, by simp⟩

/-- Rounding a quotient of at most `N`, a natural number up to `2^53`,
yields a finite value of at most `N`. -/
theorem F64.round_le_nat (neg : Bool) (p q N : Nat) (hq : 0 < q) (hN : N ≤ 2 ^ 53)
    (h : p ≤ N * q) :
    ∃ m e, F64.round neg p q = F64.fin neg m e ∧ m * 2 ^ e.toNat ≤ N * 2 ^ (-e).toNat := by
  by_cases hp : p = 0
  · refine ⟨0, -1074, ?_, by simp⟩
    unfold F64.round
    rw [if_pos hp]
  · have hpos : 0 < p := Nat.pos_of_ne_zero hp
    obtain ⟨he1, K, hK⟩ := F64.roundExp_grid p q N hpos hq hN h
    have hmK : F64.roundMant p q (F64.roundExp p q) ≤ K := by
      apply F64.roundMant_le p q K _ hq
      calc p * 2 ^ (-(F64.roundExp p q)).toNat
          ≤ N * q * 2 ^ (-(F64.roundExp p q)).toNat := Nat.mul_le_mul_right _ h
        _ = q * (N * 2 ^ (-(F64.roundExp p q)).toNat) := by
            rw [Nat.mul_comm N q, Nat.mul_assoc]
        _ = q * (K * 2 ^ (F64.roundExp p q).toNat) := by rw [hK]
        _ = K * (q * 2 ^ (F64.roundExp p q).toNat) := by
            rw [← Nat.mul_assoc, Nat.mul_comm q K, Nat.mul_assoc]
    rw [F64.round_eq neg p q hp]
    generalize F64.roundExp p q = e at he1 hK hmK ⊢
    generalize F64.roundMant p q e = m at hmK ⊢
    have hval : m * 2 ^ e.toNat ≤ N * 2 ^ (-e).toNat := by
      rw [hK]
      exact Nat.mul_le_mul_right _ hmK
    by_cases h53 : m = 2 ^ 53
    · rw [if_pos h53, if_neg (by omega)]
      refine ⟨2 ^ 52, e + 1, rfl, ?_⟩
      have hshift := pow_shift (2 ^ 52) N (e + 1).toNat (-(e + 1)).toNat (1 + e.toNat)
        (-e).toNat (by omega)
      rw [hshift]
      have h2 : (2 : Nat) ^ 52 * 2 ^ (1 + e.toNat) = 2 ^ 53 * 2 ^ e.toNat := by
        have h3 : (2 : Nat) ^ 52 * 2 ^ 1 = 2 ^ 53 := by decide
        rw [Nat.pow_add, ← Nat.mul_assoc, h3]
      rw [h2, ← h53]
      exact hval
    · rw [if_neg h53, if_neg (by omega)]
      exact ⟨m, e, rfl, hval⟩

/-- A value between 0 and 1 is finite, is zero when its sign is set, and has
a magnitude of at most 1. -/
theorem F64.unit_cases (v : F64) (h0 : F64.le F64.zero v = true)
    (h1 : F64.le v F64.one = true) :
    ∃ neg m e, v = F64.fin neg m e ∧ (neg = true → m = 0) ∧
      m * 2 ^ e.toNat ≤ 1 * 2 ^ (-e).toNat := by
  cases v with
  | nan => simp [F64.le, F64.zero] at h0
  | inf n =>
      cases n
      · simp [F64.le, F64.one] at h1
      · simp [F64.le, F64.zero] at h0
  | fin neg m e =>
      refine ⟨neg, m, e, rfl, ?_, ?_⟩
      · intro hneg
        subst hneg
        simp only [F64.le, F64.zero, F64.scaled, decide_eq_true_eq] at h0
        have hz : (((m * 2 ^ (e - min (-1074) e).toNat : Nat) : Int)) ≤ 0 := by
          simpa using h0
        have hz2 : m * 2 ^ (e - min (-1074) e).toNat = 0 := by omega
        have hpw : 0 < 2 ^ (e - min (-1074) e).toNat := Nat.two_pow_pos _
        rcases Nat.eq_zero_or_pos m with hm | hm
        · exact hm
        · have := Nat.mul_pos hm hpw
          omega
      · cases neg with
        | true =>
            simp only [F64.le, F64.zero, F64.scaled, decide_eq_true_eq] at h0
            have hz : (((m * 2 ^ (e - min (-1074) e).toNat : Nat) : Int)) ≤ 0 := by
              simpa using h0
            have hz2 : m * 2 ^ (e - min (-1074) e).toNat = 0 := by omega
            have hpw : 0 < 2 ^ (e - min (-1074) e).toNat := Nat.two_pow_pos _
            have hm : m = 0 := by
              rcases Nat.eq_zero_or_pos m with hm | hm
              · exact hm
              · have := Nat.mul_pos hm hpw
                omega
            rw [hm]
            simp
        | false =>
            simp only [F64.le, F64.one, F64.scaled, decide_eq_true_eq] at h1
            have hle : m * 2 ^ (e - min e (-52)).toNat ≤
                2 ^ 52 * 2 ^ (-52 - min e (-52)).toNat := by
              have := h1
              simp only [Bool.false_eq_true, if_false, Int.one_mul] at this
              exact_mod_cast this
            have h52 : (2 : Nat) ^ 52 * 2 ^ (-52 - min e (-52)).toNat =
                1 * 2 ^ (52 + (-52 - min e (-52)).toNat) := by
              rw [Nat.pow_add, Nat.one_mul]
            rw [h52] at hle
            exact (pow_shift m 1 (e - min e (-52)).toNat (52 + (-52 - min e (-52)).toNat)
              e.toNat (-e).toNat (by omega)).mp hle

/-- Converting an integer between 0 and `2^53` to binary64 yields a finite
value of at most that integer. -/
theorem F64.ofInt_le (W : Int) (h0 : 0 ≤ W) (h1 : W ≤ 9007199254740992) :
    ∃ m e, F64.ofInt W = F64.fin false m e ∧
      m * 2 ^ e.toNat ≤ W.natAbs * 2 ^ (-e).toNat := by
  unfold F64.ofInt
  have hneg : decide (W < 0) = false := by simpa using h0
  rw [hneg]
  have h53 : (2 : Nat) ^ 53 = 9007199254740992 := by decide
  exact F64.round_le_nat false W.natAbs 1 W.natAbs (by decide) (by omega) (by omega)

/-- The pixel coordinate of a relative coordinate between 0 and 1 on an
extent `W` between 0 and `2^53` lies between 0 and `W`. -/
theorem toPixel_bounds (v : F64) (W : Int) (h0 : F64.le F64.zero v = true)
    (h1 : F64.le v F64.one = true) (hW0 : 0 ≤ W) (hW1 : W ≤ 9007199254740992) :
    0 ≤ toPixel v W ∧ toPixel v W ≤ W := by
  obtain ⟨neg, m, e, rfl, hz, hv⟩ := F64.unit_cases v h0 h1
  obtain ⟨mW, eW, hof, hw⟩ := F64.ofInt_le W hW0 hW1
  have h53 : (2 : Nat) ^ 53 = 9007199254740992 := by decide
  unfold toPixel
  rw [hof]
  simp only [F64.mul, Bool.xor_false]
  have hprod : m * mW * 2 ^ (e + eW).toNat ≤ W.natAbs * 2 ^ (-(e + eW)).toNat := by
    have hmul : (m * 2 ^ e.toNat) * (mW * 2 ^ eW.toNat) ≤
        (1 * 2 ^ (-e).toNat) * (W.natAbs * 2 ^ (-eW).toNat) := Nat.mul_le_mul hv hw
    have hl : (m * 2 ^ e.toNat) * (mW * 2 ^ eW.toNat) =
        m * mW * 2 ^ (e.toNat + eW.toNat) := by
      rw [Nat.pow_add]
      ring
    have hr : (1 * 2 ^ (-e).toNat) * (W.natAbs * 2 ^ (-eW).toNat) =
        W.natAbs * 2 ^ ((-e).toNat + (-eW).toNat) := by
      rw [Nat.pow_add]
      ring
    rw [hl, hr] at hmul
    exact (pow_shift (m * mW) W.natAbs (e.toNat + eW.toNat) ((-e).toNat + (-eW).toNat)
      (e + eW).toNat (-(e + eW)).toNat (by omega)).mp hmul
  obtain ⟨m', e', hround, hval⟩ := F64.round_le_nat neg (m * mW * 2 ^ (e + eW).toNat)
    (2 ^ (-(e + eW)).toNat) W.natAbs (Nat.two_pow_pos _) (by omega) hprod
  rw [hround]
  have hdiv : (m' * 2 ^ e'.toNat) / 2 ^ (-e').toNat ≤ W.natAbs := by
    apply Nat.div_le_of_le_mul
    rw [Nat.mul_comm (2 ^ (-e').toNat) W.natAbs]
    exact hval
  cases hneg : neg with
  | false =>
      simp only [F64.toInt, minInt, maxInt, Bool.false_eq_true, if_false, Int.one_mul]
      have hcast : (((m' * 2 ^ e'.toNat / 2 ^ (-e').toNat : Nat) : Int)) ≤ W := by
        have : (((m' * 2 ^ e'.toNat / 2 ^ (-e').toNat : Nat) : Int)) ≤ (W.natAbs : Int) := by
          exact_mod_cast hdiv
        omega
      have hnn : (0 : Int) ≤ ((m' * 2 ^ e'.toNat / 2 ^ (-e').toNat : Nat) : Int) :=
        Int.ofNat_nonneg _
      rw [if_pos (by omega)]
      exact ⟨hnn, hcast⟩
  | true =>
      have hm0 : m = 0 := hz hneg
      subst hm0
      have hr0 : F64.round neg (0 * mW * 2 ^ (e + eW).toNat) (2 ^ (-(e + eW)).toNat) =
          F64.fin neg 0 (-1074) := by
        unfold F64.round
        rw [if_pos (by simp)]
      rw [hr0] at hround
      injection hround with _ hm' he'
      subst hm' he'
      simp [F64.toInt, minInt, maxInt]
      exact hW0

/-- The coordinates of a `figure` or `move` operation made from a command and
arguments that all parse are values clamped by `ParseCoords`. -/
theorem operationOf_coords (command : String) (args : List String) (X Y : F64)
    (hall : ∀ x ∈ args, (ParseFloat x).isSome = true)
    (h : operationOf command args = some (Operation.FigureOperation X Y) ∨
      operationOf command args = some (Operation.MoveOperation X Y)) :
    ∃ vx vy, X = clamp vx ∧ Y = clamp vy := by
  unfold operationOf at h
  by_cases h1 : command = "white"
  · simp [h1] at h
  by_cases h2 : command = "green"
  · simp [h2] at h
  by_cases h3 : command = "update"
  · simp [h3] at h
  by_cases h4 : command = "reset"
  · simp [h4] at h
  simp only [h1, h2, h3, h4, if_false] at h
  match args, hall, h with
  | [a, b], hall, h =>
      obtain ⟨va, hva⟩ := Option.isSome_iff_exists.mp (hall a (by simp))
      obtain ⟨vb, hvb⟩ := Option.isSome_iff_exists.mp (hall b (by simp))
      refine ⟨va, vb, ?_⟩
      rw [clamp_eq_clampUnit, clamp_eq_clampUnit]
      by_cases h6 : command = "figure"
      · simp [h6, argValue, hva, hvb] at h
        exact ⟨h.1.symm, h.2.symm⟩
      · by_cases h7 : command = "move"
        · simp [h6, h7, argValue, hva, hvb] at h
          exact ⟨h.1.symm, h.2.symm⟩
        · simp [h6, h7] at h
  | [a, b, c, d], _, h =>
      by_cases h5 : command = "bgrect" <;> simp [h5] at h
  | [], _, h => simp at h
  | [_], _, h => simp at h
  | [_, _, _], _, h => simp at h
  | _ :: _ :: _ :: _ :: _ :: _, _, h => simp at h

/-- The coordinates of a `figure` or `move` operation that the parser yields
are values clamped by `ParseCoords`. -/
theorem parsed_fields_clamped (line : String) (X Y : F64)
    (h : parseCommandLine line = some (Operation.FigureOperation X Y) ∨
      parseCommandLine line = some (Operation.MoveOperation X Y)) :
    ∃ vx vy, X = clamp vx ∧ Y = clamp vy := by
  rw [parseCommandLine_eq, lineOperation_eq] at h
  cases hf : Fields (stripComment line) with
  | nil => simp [hf] at h
  | cons f0 args =>
      simp only [hf] at h
      cases ha : arity (ToLower f0) with
      | none => simp [ha] at h
      | some n =>
          simp only [ha] at h
          by_cases hc : args.length = n ∧ (args.all fun a => (ParseFloat a).isSome) = true
          · rw [if_pos hc] at h
            have hall : ∀ x ∈ args, (ParseFloat x).isSome = true := by
              simpa using hc.2
            exact operationOf_coords (ToLower f0) args X Y hall h
          · rw [if_neg hc] at h
            simp at h

/-- Clamping NaN leaves NaN. -/
theorem clamp_nan : clamp F64.nan = F64.nan := by decide

/-- C24 (amended): for every `figure` or `move` line accepted by the parser
whose two coordinates are not NaN, and every surface whose bounds have a
width `W` and a height `H` between 0 and `2^53`, the pixel coordinates
`(int(X*W), int(Y*H))` that `FigureOperation.Do` appends, or that
`MoveOperation.Do` writes into every figure, satisfy `0 <= X <= W` and
`0 <= Y <= H`. -/
theorem parsed_figure_on_surface (line : String) (op : Operation) (X Y : F64)
    (state : LoopState) (tex : Texture)
    (hline : parseCommandLine line = some op)
    (hop : op = Operation.FigureOperation X Y ∨ op = Operation.MoveOperation X Y)
    (hX : X ≠ F64.nan) (hY : Y ≠ F64.nan) (ht : state.Texture = some tex)
    (hW : 0 ≤ tex.bounds.Dx ∧ tex.bounds.Dx ≤ 9007199254740992)
    (hH : 0 ≤ tex.bounds.Dy ∧ tex.bounds.Dy ≤ 9007199254740992) :
    (0 ≤ toPixel X tex.bounds.Dx ∧ toPixel X tex.bounds.Dx ≤ tex.bounds.Dx ∧
      0 ≤ toPixel Y tex.bounds.Dy ∧ toPixel Y tex.bounds.Dy ≤ tex.bounds.Dy) ∧
    (op = Operation.FigureOperation X Y →
      (op.Do state).1.Figures =
        state.Figures ++ [⟨toPixel X tex.bounds.Dx, toPixel Y tex.bounds.Dy⟩]) ∧
    (op = Operation.MoveOperation X Y →
      ∀ f ∈ (op.Do state).1.Figures,
        f = ⟨toPixel X tex.bounds.Dx, toPixel Y tex.bounds.Dy⟩) := by
  have hparsed : parseCommandLine line = some (Operation.FigureOperation X Y) ∨
      parseCommandLine line = some (Operation.MoveOperation X Y) := by
    rcases hop with h | h
    · exact Or.inl (by rw [hline, h])
    · exact Or.inr (by rw [hline, h])
  obtain ⟨vx, vy, hvx, hvy⟩ := parsed_fields_clamped line X Y hparsed
  have hnx : vx ≠ F64.nan := by
    intro hn
    rw [hn, clamp_nan] at hvx
    exact hX hvx
  have hny : vy ≠ F64.nan := by
    intro hn
    rw [hn, clamp_nan] at hvy
    exact hY hvy
  have hux := clamp_in_unit vx hnx
  have huy := clamp_in_unit vy hny
  rw [← hvx] at hux
  rw [← hvy] at huy
  have hbx := toPixel_bounds X tex.bounds.Dx hux.1 hux.2 hW.1 hW.2
  have hby := toPixel_bounds Y tex.bounds.Dy huy.1 huy.2 hH.1 hH.2
  refine ⟨⟨hbx.1, hbx.2, hby.1, hby.2⟩, ?_, ?_⟩
  · intro h
    subst h
    simp only [Operation.Do, ht]
  · intro h
    subst h
    intro f hf
    simp only [Operation.Do, ht, List.mem_map] at hf
    obtain ⟨_, _, rfl⟩ := hf
    rfl

/-- C24, witness: `figure 1 0.5` on the 800x800 surface appends `(800, 400)`,
a point of the closed rectangle `[0,800] x [0,800]`. -/
theorem parsed_figure_on_surface_witness :
    parseCommandLine "figure 1 0.5" = some (Operation.FigureOperation F64.one F64.half) ∧
    toPixel F64.one tex800.bounds.Dx = 800 ∧ toPixel F64.half tex800.bounds.Dy = 400 ∧
    ((0 ≤ toPixel F64.one tex800.bounds.Dx ∧
        toPixel F64.one tex800.bounds.Dx ≤ tex800.bounds.Dx ∧
        0 ≤ toPixel F64.half tex800.bounds.Dy ∧
        toPixel F64.half tex800.bounds.Dy ≤ tex800.bounds.Dy) ∧
      (Operation.FigureOperation F64.one F64.half = Operation.FigureOperation F64.one F64.half →
        ((Operation.FigureOperation F64.one F64.half).Do initialLoop.State).1.Figures =
          initialLoop.State.Figures ++
            [⟨toPixel F64.one tex800.bounds.Dx, toPixel F64.half tex800.bounds.Dy⟩]) ∧
      (Operation.FigureOperation F64.one F64.half = Operation.MoveOperation F64.one F64.half →
        ∀ f ∈ ((Operation.FigureOperation F64.one F64.half).Do initialLoop.State).1.Figures,
          f = ⟨toPixel F64.one tex800.bounds.Dx, toPixel F64.half tex800.bounds.Dy⟩)) :=
  ⟨by decide, by decide, by decide,
    parsed_figure_on_surface "figure 1 0.5" (Operation.FigureOperation F64.one F64.half)
      F64.one F64.half initialLoop.State tex800 (by decide) (Or.inl rfl) (by decide)
      (by decide) rfl (by decide) (by decide)⟩

/-- C24 as stated fails on a surface wider than `2^53` pixels: the width
`2^53 + 3` is not a binary64 value and `float64` rounds it up to `2^53 + 4`,
so `figure 1 0.5` is placed at `X = 2^53 + 4`, beyond the width.  It also
fails on the 800x800 surface for the line `figure NaN 0.5`, which the parser
accepts with `X = NaN`: the conversion `int(NaN * 800)` gives the least `int`
on amd64, a negative coordinate. -/
theorem parsed_figure_on_surface_counterexample :
    (parseCommandLine "figure 1 0.5" = some (Operation.FigureOperation F64.one F64.half) ∧
      (texOf 9007199254740995 800).bounds.Dx = 9007199254740995 ∧
      (texOf 9007199254740995 800).bounds.Dy = 800 ∧
      ((Operation.FigureOperation F64.one F64.half).Do
          { initialLoop.State with Texture := some (texOf 9007199254740995 800) }).1.Figures =
        [⟨400, 400⟩, ⟨9007199254740996, 400⟩] ∧
      ¬ (toPixel F64.one (texOf 9007199254740995 800).bounds.Dx ≤
          (texOf 9007199254740995 800).bounds.Dx)) ∧
    (parseCommandLine "figure NaN 0.5" = some (Operation.FigureOperation F64.nan F64.half) ∧
      ((Operation.FigureOperation F64.nan F64.half).Do initialLoop.State).1.Figures =
        [⟨400, 400⟩, ⟨-9223372036854775808, 400⟩] ∧
      ¬ (0 ≤ toPixel F64.nan tex800.bounds.Dx)) := by
  decide

end Painter
